import Mathlib

/-!
Verification of the tunnelrest-go REST client against its specification.

Go strings are byte strings; we model them as `List Char`, each `Char`
standing for one byte (all concrete inputs below are ASCII, and theorems
that re-encode text carry an explicit byte-range hypothesis where the
encoding functions require bytes).  The development embeds, translated
from the source:

* the parts of Go's `net/url` package used by the repository
  (`url.Parse`, `url.Values`, `ParseQuery`, `Values.Encode`,
  `URL.String`, escaping/unescaping) and `path.Join`/`path.Clean`;
* `util.SanitizedURL` / `util.SanitizedRawURL` (src/util/util.go);
* `generateURL` (src/client_utils.go);
* the `ClientError` type and `isErrorRetryable` classifier together
  with the two classification tables (src/client_errors.go); the tables
  are package-level mutable slices, so the classifier is parameterized
  by the table contents, with the defaults given as constants;
* the failure-path state machine of `Client.executeRequest`
  (src/client.go), with the effectful stages (encode, transport,
  body read, decode) supplied as explicit outcomes.
-/

/-- Go byte strings, one `Char` per byte. -/
abbrev Str := List Char

/-- Convert an ASCII Lean string literal to a modeled Go string. -/
def str (s : String) : Str := s.toList

/-- ASCII uppercase letter. -/
def isUpperAZ (c : Char) : Bool := 'A' ≤ c && c ≤ 'Z'

/-- ASCII lowercase letter. -/
def isLowerAZ (c : Char) : Bool := 'a' ≤ c && c ≤ 'z'

/-- ASCII digit. -/
def isDigit09 (c : Char) : Bool := '0' ≤ c && c ≤ '9'

/-- ASCII alphanumeric. -/
def isAlphaNum (c : Char) : Bool := isUpperAZ c || isLowerAZ c || isDigit09 c

/-- Go `ishex` (net/url): is the byte a hexadecimal digit. -/
def ishex (c : Char) : Bool :=
  isDigit09 c || ('a' ≤ c && c ≤ 'f') || ('A' ≤ c && c ≤ 'F')

/-- Go `unhex` (net/url): hexadecimal digit value. -/
def unhex (c : Char) : Nat :=
  if isDigit09 c then c.toNat - '0'.toNat
  else if 'a' ≤ c && c ≤ 'f' then c.toNat - 'a'.toNat + 10
  else if 'A' ≤ c && c ≤ 'F' then c.toNat - 'A'.toNat + 10
  else 0

/-- Upper-case hex digits, as in net/url's `upperhex` constant. -/
def upperhexDigit (n : Nat) : Char :=
  (str "0123456789ABCDEF").getD n '0'

/-- Go `stringContainsCTLByte`: byte below 0x20 or equal to 0x7f. -/
def isCTLByte (c : Char) : Bool := c.toNat < 0x20 || c.toNat == 0x7f

/-- Go `strings.Cut` with a one-byte separator: returns the part before
the first occurrence, the part after it, and whether it was found. -/
def cutChar (s : Str) (sep : Char) : Str × Str × Bool :=
  match s with
  | [] => ([], [], false)
  | c :: rest =>
    if c = sep then ([], rest, true)
    else
      let r := cutChar rest sep
      (c :: r.1, r.2.1, r.2.2)

/-- net/url's `split(s, sep, cutc)`: split about the first occurrence of
`sep`; with `cutc` the separator is dropped from the second half. -/
def splitChar (s : Str) (sep : Char) (cutc : Bool) : Str × Str :=
  let r := cutChar s sep
  if r.2.2 then (if cutc then (r.1, r.2.1) else (r.1, sep :: r.2.1)) else (s, [])

/-- Split a Go string about the LAST occurrence of `sep` (used to model
`strings.LastIndex`-based splits): `s = before ++ sep :: after` with
`sep ∉ after`, or `none` when `sep` does not occur. -/
def cutLastChar (s : Str) (sep : Char) : Option (Str × Str) :=
  match s with
  | [] => none
  | c :: rest =>
    match cutLastChar rest sep with
    | some (b, a) => some (c :: b, a)
    | none => if c = sep then some ([], rest) else none

/-- Go `strings.LastIndex` with a one-byte pattern, -1 when absent. -/
def lastIndexChar (s : Str) (c : Char) : Int :=
  match cutLastChar s c with
  | some (b, _) => (b.length : Int)
  | none => -1

/-- Index of the first occurrence of `pat` as a contiguous block of `s`
(Go `strings.Index`). -/
def indexOfSeq (s pat : Str) : Option Nat :=
  match s with
  | [] => if pat = [] then some 0 else none
  | _ :: rest =>
    if pat = s.take pat.length then some 0
    else (indexOfSeq rest pat).map (· + 1)

/-- Boolean prefix test on byte strings. -/
def startsWithStr (pre s : Str) : Bool := s.take pre.length = pre

/-- Go `strings.Contains` on byte strings. -/
def hasSubstring (s sub : Str) : Bool := (indexOfSeq s sub).isSome

/-- The encoding modes of net/url's `shouldEscape`/`escape`/`unescape`. -/
inductive Encoding where
  | path
  | pathSegment
  | host
  | zone
  | userPassword
  | queryComponent
  | fragment
deriving DecidableEq, Repr

/-- net/url `shouldEscape(c, mode)`: must the byte be percent-encoded
in the given URL component. -/
def shouldEscape (c : Char) (mode : Encoding) : Bool :=
  if isAlphaNum c then false
  else if (mode = Encoding.host || mode = Encoding.zone) &&
      (c ∈ ['!', '$', '&', '\'', '(', ')', '*', '+', ',', ';', '=', ':', '[', ']', '<', '>', '"']) then
    false
  else if c ∈ ['-', '_', '.', '~'] then false
  else if c ∈ ['$', '&', '+', ',', '/', ':', ';', '=', '?', '@'] then
    match mode with
    | Encoding.path => c = '?'
    | Encoding.pathSegment => c = '/' || c = ';' || c = ',' || c = '?'
    | Encoding.userPassword => c = '@' || c = '/' || c = '?' || c = ':'
    | Encoding.queryComponent => true
    | Encoding.fragment => false
    | Encoding.host => true
    | Encoding.zone => true
  else if mode = Encoding.fragment && c ∈ ['!', '(', ')', '*'] then false
  else true

/-- net/url `unescape(s, mode)`: decode percent-escapes (and `+` in
query components), validating escapes and raw host bytes exactly as the
Go function does. -/
def unescape (mode : Encoding) : Str → Except String Str
  | [] => Except.ok []
  | '%' :: rest =>
    match rest with
    | c1 :: c2 :: rest2 =>
      if ishex c1 && ishex c2 then
        if mode = Encoding.host && unhex c1 < 8 && ¬(c1 = '2' ∧ c2 = '5') then
          Except.error "invalid URL escape"
        else if mode = Encoding.zone &&
            ¬(c1 = '2' ∧ c2 = '5') && unhex c1 * 16 + unhex c2 ≠ 32 &&
            shouldEscape (Char.ofNat (unhex c1 * 16 + unhex c2)) Encoding.host then
          Except.error "invalid URL escape"
        else
          (unescape mode rest2).map (Char.ofNat (unhex c1 * 16 + unhex c2) :: ·)
      else Except.error "invalid URL escape"
    | _ => Except.error "invalid URL escape"
  | '+' :: rest =>
    (unescape mode rest).map ((if mode = Encoding.queryComponent then ' ' else '+') :: ·)
  | c :: rest =>
    if (mode = Encoding.host || mode = Encoding.zone) && c.toNat < 0x80 && shouldEscape c mode then
      Except.error "invalid character in host name"
    else (unescape mode rest).map (c :: ·)

/-- net/url `escape(s, mode)`: percent-encode the bytes `shouldEscape`
selects; a space becomes `+` in query components. -/
def escape (mode : Encoding) (s : Str) : Str :=
  s.foldr (fun c acc =>
    if mode = Encoding.queryComponent && c = ' ' then '+' :: acc
    else if shouldEscape c mode then
      '%' :: upperhexDigit (c.toNat / 16) :: upperhexDigit (c.toNat % 16) :: acc
    else c :: acc) []

/-- net/url `validEncoded(s, mode)`: may `s` appear unmodified as an
already-escaped form of the component. -/
def validEncoded (s : Str) (mode : Encoding) : Bool :=
  s.all (fun c =>
    if c ∈ ['!', '$', '&', '\'', '(', ')', '*', '+', ',', ';', '=', ':', '@'] then true
    else if c = '[' || c = ']' then true
    else if c = '%' then true
    else !shouldEscape c mode)

/-- net/url `validOptionalPort`: empty, or `:` followed by digits. -/
def validOptionalPort (port : Str) : Bool :=
  match port with
  | [] => true
  | ':' :: digits => digits.all isDigit09
  | _ => false

/-- net/url `validUserinfo`: the bytes RFC 3986 allows in userinfo. -/
def validUserinfo (s : Str) : Bool :=
  s.all (fun c =>
    isAlphaNum c ||
    c ∈ ['-', '.', '_', ':', '~', '!', '$', '&', '\'', '(', ')', '*', '+', ',', ';', '=', '%', '@'])

/-- net/url `Userinfo`: username, password, and whether a password was set. -/
structure Userinfo where
  username : Str
  password : Str
  passwordSet : Bool
deriving DecidableEq, Repr

/-- net/url `URL` (the fields the repository's code can reach).  Go's
`Opaque` field is named `OpaquePart` here. -/
structure URL where
  Scheme : Str := []
  OpaquePart : Str := []
  User : Option Userinfo := none
  Host : Str := []
  Path : Str := []
  RawPath : Str := []
  OmitHost : Bool := false
  ForceQuery : Bool := false
  RawQuery : Str := []
  Fragment : Str := []
  RawFragment : Str := []
deriving DecidableEq, Repr

/-- ASCII lower-casing of one byte (`strings.ToLower` restricted to the
ASCII scheme characters `getScheme` admits). -/
def toLowerChar (c : Char) : Char :=
  if isUpperAZ c then Char.ofNat (c.toNat + 32) else c

/-- ASCII lower-casing of a byte string. -/
def toLowerStr (s : Str) : Str := s.map toLowerChar

/-- Helper of `getScheme`: `acc` is the run of scheme bytes read so far,
`orig` the whole input (returned when no scheme is present). -/
def getSchemeAux (orig : Str) (acc : Str) : Str → Except String (Str × Str)
  | [] => Except.ok ([], orig)
  | c :: rest =>
    if isUpperAZ c || isLowerAZ c then getSchemeAux orig (acc ++ [c]) rest
    else if isDigit09 c || c = '+' || c = '-' || c = '.' then
      if acc = [] then Except.ok ([], orig) else getSchemeAux orig (acc ++ [c]) rest
    else if c = ':' then
      if acc = [] then Except.error "missing protocol scheme"
      else Except.ok (acc, rest)
    else Except.ok ([], orig)

/-- net/url `getScheme`: split a leading `scheme:` off a raw URL. -/
def getScheme (rawURL : Str) : Except String (Str × Str) :=
  getSchemeAux rawURL [] rawURL

/-- net/url `parseHost`: validate the port, handle IP literals with an
RFC 6874 zone, and unescape the host bytes (the three unescapes of the
zone case run in source order, first error wins). -/
def parseHost (host : Str) : Except String Str :=
  if host.head? = some '[' then
    match cutLastChar host ']' with
    | none => Except.error "missing right bracket in host"
    | some (b, a) =>
      if !validOptionalPort a then Except.error "invalid port after host"
      else
        match indexOfSeq b (str "%25") with
        | some z =>
          match unescape Encoding.host (b.take z), unescape Encoding.zone (b.drop z),
              unescape Encoding.host (']' :: a) with
          | Except.error e, _, _ => Except.error e
          | _, Except.error e, _ => Except.error e
          | _, _, Except.error e => Except.error e
          | Except.ok h1, Except.ok h2, Except.ok h3 => Except.ok (h1 ++ h2 ++ h3)
        | none => unescape Encoding.host host
  else
    match cutLastChar host ':' with
    | some (_, a) =>
      if !validOptionalPort (':' :: a) then Except.error "invalid port after host"
      else unescape Encoding.host host
    | none => unescape Encoding.host host

/-- net/url `parseAuthority`: split `user@host` at the last `@`,
validate and unescape (host first, as in the source). -/
def parseAuthority (authority : Str) : Except String (Option Userinfo × Str) :=
  match cutLastChar authority '@' with
  | none =>
    match parseHost authority with
    | Except.error e => Except.error e
    | Except.ok host => Except.ok (none, host)
  | some (userinfo, hostPart) =>
    match parseHost hostPart with
    | Except.error e => Except.error e
    | Except.ok host =>
      if !validUserinfo userinfo then Except.error "net/url: invalid userinfo"
      else
        let r := cutChar userinfo ':'
        if !r.2.2 then
          match unescape Encoding.userPassword userinfo with
          | Except.error e => Except.error e
          | Except.ok u => Except.ok (some ⟨u, [], false⟩, host)
        else
          match unescape Encoding.userPassword r.1, unescape Encoding.userPassword r.2.1 with
          | Except.error e, _ => Except.error e
          | _, Except.error e => Except.error e
          | Except.ok un, Except.ok pw => Except.ok (some ⟨un, pw, true⟩, host)

/-- net/url `URL.setPath`: unescape into `Path`, remember `RawPath` only
when re-escaping would not reproduce the input. -/
def setPath (u : URL) (p : Str) : Except String URL :=
  match unescape Encoding.path p with
  | Except.error e => Except.error e
  | Except.ok path =>
    Except.ok { u with Path := path,
                       RawPath := if escape Encoding.path path = p then [] else p }

/-- net/url `URL.setFragment`, same shape as `setPath`. -/
def setFragment (u : URL) (f : Str) : Except String URL :=
  match unescape Encoding.fragment f with
  | Except.error e => Except.error e
  | Except.ok frag =>
    Except.ok { u with Fragment := frag,
                       RawFragment := if escape Encoding.fragment frag = f then [] else f }

/-- net/url's internal `parse(rawURL, viaRequest)` (the fragment has
already been split off by `Parse`).  The source's straight-line body
with early returns is written as one `if`/`else` chain: the conditions
of the later branches repeat the (negated) conditions under which the
source falls through to them. -/
def parseURL (rawURL : Str) (viaRequest : Bool) : Except String URL :=
  if rawURL.any isCTLByte then Except.error "net/url: invalid control character in URL"
  else if rawURL = [] ∧ viaRequest then Except.error "empty url"
  else if rawURL = ['*'] then Except.ok { Path := ['*'] }
  else
    match getScheme rawURL with
    | Except.error e => Except.error e
    | Except.ok (scheme0, rest0) =>
      let scheme := toLowerStr scheme0
      let q : Str × Str × Bool :=
        if rest0.getLast? = some '?' ∧ ¬(rest0.dropLast.contains '?') then
          (rest0.dropLast, [], true)
        else
          let s := splitChar rest0 '?' true
          (s.1, s.2, false)
      let rest := q.1
      let rawQuery := q.2.1
      let forceQuery := q.2.2
      if rest.head? ≠ some '/' ∧ scheme ≠ [] then
        Except.ok { Scheme := scheme, OpaquePart := rest,
                    ForceQuery := forceQuery, RawQuery := rawQuery }
      else if rest.head? ≠ some '/' ∧ viaRequest then
        Except.error "invalid URI for request"
      else if rest.head? ≠ some '/' ∧ (cutChar rest '/').1.contains ':' then
        Except.error "first path segment in URL cannot contain colon"
      else if (scheme ≠ [] ∨ (¬viaRequest ∧ ¬(rest.take 3 = ['/', '/', '/']))) ∧
          rest.take 2 = ['/', '/'] then
        match parseAuthority (splitChar (rest.drop 2) '/' false).1 with
        | Except.error e => Except.error e
        | Except.ok (user, host) =>
          setPath { Scheme := scheme, User := user, Host := host,
                    ForceQuery := forceQuery, RawQuery := rawQuery }
            (splitChar (rest.drop 2) '/' false).2
      else
        setPath { Scheme := scheme, OmitHost := scheme ≠ [] ∧ rest.head? = some '/',
                  ForceQuery := forceQuery, RawQuery := rawQuery } rest

/-- net/url `Parse`: split the fragment, parse the rest, set the fragment. -/
def Parse (rawURL : Str) : Except String URL :=
  match parseURL (splitChar rawURL '#' true).1 false with
  | Except.error e => Except.error e
  | Except.ok url =>
    if (splitChar rawURL '#' true).2 = [] then Except.ok url
    else setFragment url (splitChar rawURL '#' true).2

/-- net/url `URL.EscapedPath`: reuse `RawPath` when it is a valid
encoding of `Path`, otherwise escape `Path`. -/
def escapedPath (u : URL) : Str :=
  if u.RawPath ≠ [] ∧ validEncoded u.RawPath Encoding.path then
    match unescape Encoding.path u.RawPath with
    | Except.ok p =>
      if p = u.Path then u.RawPath
      else if u.Path = ['*'] then ['*'] else escape Encoding.path u.Path
    | Except.error _ =>
      if u.Path = ['*'] then ['*'] else escape Encoding.path u.Path
  else if u.Path = ['*'] then ['*'] else escape Encoding.path u.Path

/-- net/url `URL.EscapedFragment`, same shape as `escapedPath`. -/
def escapedFragment (u : URL) : Str :=
  if u.RawFragment ≠ [] ∧ validEncoded u.RawFragment Encoding.fragment then
    match unescape Encoding.fragment u.RawFragment with
    | Except.ok f =>
      if f = u.Fragment then u.RawFragment else escape Encoding.fragment u.Fragment
    | Except.error _ => escape Encoding.fragment u.Fragment
  else escape Encoding.fragment u.Fragment

/-- net/url `Userinfo.String`: escaped `user` or `user:password`. -/
def userinfoString (ui : Userinfo) : Str :=
  escape Encoding.userPassword ui.username ++
    (if ui.passwordSet then ':' :: escape Encoding.userPassword ui.password else [])

/-- net/url `URL.String`: reassemble the URL. -/
def URL.toString (u : URL) : Str :=
  let buf0 : Str := if u.Scheme ≠ [] then u.Scheme ++ [':'] else []
  let buf1 : Str :=
    if u.OpaquePart ≠ [] then buf0 ++ u.OpaquePart
    else
      let buf' :=
        if u.Scheme ≠ [] ∨ u.Host ≠ [] ∨ u.User.isSome then
          if u.OmitHost ∧ u.Host = [] ∧ u.User = none then buf0
          else
            let b1 := if u.Host ≠ [] ∨ u.Path ≠ [] ∨ u.User.isSome then buf0 ++ ['/', '/'] else buf0
            let b2 := match u.User with
              | some ui => b1 ++ userinfoString ui ++ ['@']
              | none => b1
            if u.Host ≠ [] then b2 ++ escape Encoding.host u.Host else b2
        else buf0
      let path := escapedPath u
      let buf'' :=
        if path ≠ [] ∧ path.head? ≠ some '/' ∧ u.Host ≠ [] then buf' ++ ['/']
        else buf'
      let buf3 :=
        if buf'' = [] ∧ (cutChar path '/').1.contains ':' then buf'' ++ ['.', '/']
        else buf''
      buf3 ++ path
  let buf4 := if u.ForceQuery ∨ u.RawQuery ≠ [] then buf1 ++ '?' :: u.RawQuery else buf1
  if u.Fragment ≠ [] then buf4 ++ '#' :: escapedFragment u else buf4

/-- net/url `Values`: a Go `map[string][]string`, modeled as an
association list with pairwise-distinct keys kept in insertion order
(Go map iteration order is arbitrary; every use below either looks up,
replaces one key, or sorts the keys before serializing, so the order of
this list never influences a result). -/
abbrev Values := List (Str × List Str)

/-- Add one decoded `key=value` pair, as `m[key] = append(m[key], value)`
does on a Go map. -/
def valuesAdd (m : Values) (k : Str) (v : Str) : Values :=
  match m with
  | [] => [(k, [v])]
  | (k', vs) :: rest =>
    if k' = k then (k', vs ++ [v]) :: rest else (k', vs) :: valuesAdd rest k v

/-- Go map assignment `m[k] = v` on the association-list model. -/
def valuesSet (m : Values) (k : Str) (v : List Str) : Values :=
  match m with
  | [] => [(k, v)]
  | (k', vs) :: rest =>
    if k' = k then (k', v) :: rest else (k', vs) :: valuesSet rest k v

/-- net/url `parseQuery`: iterated `strings.Cut` on `&` (written as a
fold over `splitOn`, which produces the same chunk sequence), skipping
empty chunks, rejecting `;`, and unescaping key and value.  The boolean
records whether any chunk was rejected (the error `Query` discards). -/
def parseQueryGo (query : Str) : Values × Bool :=
  (query.splitOn '&').foldl
    (fun acc chunk =>
      if chunk.contains ';' then (acc.1, true)
      else if chunk = [] then acc
      else
        let kv := cutChar chunk '='
        match unescape Encoding.queryComponent kv.1,
              unescape Encoding.queryComponent kv.2.1 with
        | Except.ok k, Except.ok v => (valuesAdd acc.1 k v, acc.2)
        | _, _ => (acc.1, true))
    ([], false)

/-- net/url `URL.Query`: parse `RawQuery`, discarding the error. -/
def URL.Query (u : URL) : Values := (parseQueryGo u.RawQuery).1

/-- Byte-wise `≤` on Go strings (the order `sort.Strings` uses). -/
def strLe : Str → Str → Bool
  | [], _ => true
  | _ :: _, [] => false
  | c :: a, d :: b => if c = d then strLe a b else decide (c < d)

/-- Insert an entry into a key-sorted association list. -/
def insertSortedByKey (p : Str × List Str) : Values → Values
  | [] => [p]
  | q :: rest => if strLe p.1 q.1 then p :: q :: rest else q :: insertSortedByKey p rest

/-- Sort an association list by key (net/url `Values.Encode` sorts the
map's keys before serializing). -/
def sortByKey (v : Values) : Values := v.foldr insertSortedByKey []

/-- net/url `Values.Encode`: sorted keys, each value escaped, pairs
joined with `&`. -/
def Values.encode (v : Values) : Str :=
  List.intercalate ['&']
    ((sortByKey v).foldr
      (fun p acc =>
        p.2.map (fun val =>
          escape Encoding.queryComponent p.1 ++ '=' :: escape Encoding.queryComponent val)
        ++ acc) [])

/-- One step of Go `path.Clean`'s element processing: push a (non-empty,
non-`.`) segment onto the output stack, letting `..` pop. -/
def cleanPush (rooted : Bool) (out : List Str) (seg : Str) : List Str :=
  if seg = ['.', '.'] then
    match out.getLast? with
    | some l => if l = ['.', '.'] then out ++ [seg] else out.dropLast
    | none => if rooted then [] else [seg]
  else out ++ [seg]

/-- Go `path.Clean` by its documented algorithm: drop empty and `.`
elements, resolve `..`, keep rootedness, return `.` for an empty result. -/
def pathClean (p : Str) : Str :=
  if p = [] then ['.']
  else
    let rooted := p.head? = some '/'
    let segs := (p.splitOn '/').filter (fun s => s ≠ [] ∧ s ≠ ['.'])
    let out := segs.foldl (cleanPush rooted) []
    let res := (if rooted then ['/'] else []) ++ List.intercalate ['/'] out
    if res = [] then ['.'] else res

/-- Go `path.Join` restricted to two elements (the only arity the
repository uses): join with `/`, skipping empty parts, then `Clean`. -/
def pathJoin (a b : Str) : Str :=
  if a = [] ∧ b = [] then []
  else if a = [] then pathClean b
  else pathClean (a ++ '/' :: b)

/-- util.SanitizedURL: the sanitized form (scheme, host, and path) of a
parsed URL (src/util/util.go). -/
def SanitizedURL (u : URL) : Str :=
  let s := u.Scheme ++ [':', '/', '/'] ++ u.Host
  if u.Path ≠ [] then s ++ u.Path else s

/-- util.SanitizedRawURL: parse and sanitize; on a parse error return
the input unchanged (src/util/util.go). -/
def SanitizedRawURL (u : Str) : Str :=
  match Parse u with
  | Except.ok p => SanitizedURL p
  | Except.error _ => u

/-- Outcome of a Go function call that may also panic. -/
inductive GoResult (α : Type) where
  | ok (val : α)
  | err (msg : String)
  | panicked (msg : String)
deriving DecidableEq, Repr

/-- generateURL (src/client_utils.go): parse the base URL, join the
extra path segments, merge the query parameters, re-encode.  A value
list is a Go `[]string`: `none` is a nil slice.  The source guard
`k != "" && (v != nil && v[0] != "")` indexes `v[0]` whenever `v` is
non-nil, so a non-nil empty list makes the Go code panic with an
index-out-of-range runtime error, modeled by `GoResult.panicked`. -/
def generateURL (baseURL : Str) (paths : List Str)
    (queryParams : List (Str × Option (List Str))) : GoResult Str :=
  match Parse baseURL with
  | Except.error e => GoResult.err e
  | Except.ok base0 =>
    let base1 := { base0 with Path := paths.foldl pathJoin base0.Path }
    let merged := queryParams.foldl
      (fun acc p =>
        match acc with
        | GoResult.ok m =>
          if p.1 ≠ [] then
            match p.2 with
            | none => GoResult.ok m
            | some vs =>
              match vs.head? with
              | none => GoResult.panicked "runtime error: index out of range [0] with length 0"
              | some v0 => if v0 ≠ [] then GoResult.ok (valuesSet m p.1 vs) else GoResult.ok m
          else GoResult.ok m
        | other => other)
      (GoResult.ok (URL.Query base1))
    match merged with
    | GoResult.ok fq => GoResult.ok (URL.toString { base1 with RawQuery := Values.encode fq })
    | GoResult.err e => GoResult.err e
    | GoResult.panicked msg => GoResult.panicked msg

/-- Go `error` values reachable in the client: the two stdlib sentinels
the code compares against or constructs, the package's own sentinel
errors (src/client_errors.go), plain errors, and `fmt.Errorf`-style
wrapping (which `errors.Is` unwraps). -/
inductive GoError where
  | deadlineExceeded
  | requestFailed
  | nullReader
  | nullWriter
  | simple (msg : String)
  | wrap (msg : String) (inner : GoError)
deriving DecidableEq, Repr

/-- The `Error()` message of a modeled Go error. -/
def GoError.message : GoError → String
  | GoError.deadlineExceeded => "context deadline exceeded"
  | GoError.requestFailed => "HTTP request failed"
  | GoError.nullReader => "can't decode JSON from a null reader"
  | GoError.nullWriter => "can't decode JSON from a null writer"
  | GoError.simple m => m
  | GoError.wrap m _ => m

/-- Go `errors.Is(e, target)` for sentinel targets: equality, else unwrap. -/
def GoError.is (e target : GoError) : Bool :=
  e = target ||
    match e with
    | GoError.wrap _ inner => inner.is target
    | _ => false

/-- Go `strings.Contains` on the (Lean-string) error messages. -/
def stringsContains (s sub : String) : Bool := (indexOfSeq s.toList sub.toList).isSome

/-- ClientError (src/client_errors.go).  `Err = none` is a nil `Err`
field; a zero `StatusCode` means no HTTP response was obtained. -/
structure ClientError where
  Err : Option GoError := none
  Message : String := ""
  Retryable : Bool := false
  ServerResponse : Str := []
  StatusCode : Nat := 0
  URL : Str := []
deriving DecidableEq, Repr

/-- Default contents of the `RetryableErrorMessages` table
(src/client_errors.go line 21): empty. -/
def RetryableErrorMessages : List String := []

/-- Default contents of the `RetryableStatusCodes` table
(src/client_errors.go lines 28-36), in source order: 502 BadGateway,
409 Conflict, 504 GatewayTimeout, 500 InternalServerError,
408 RequestTimeout, 503 ServiceUnavailable, 429 TooManyRequests. -/
def RetryableStatusCodes : List Nat := [502, 409, 504, 500, 408, 503, 429]

/-- The status-code-based section of `isErrorRetryable`: when a status
code is set, scan the whole table, setting `Retryable` on a match (the
loop keeps scanning after a match and never assigns `false`). -/
def statusCodeCheck (statusTable : List Nat) (cE : ClientError) : ClientError :=
  if cE.StatusCode ≠ 0 then
    { cE with Retryable :=
        statusTable.foldl (fun r code => if cE.StatusCode = code then true else r) cE.Retryable }
  else cE

/-- Does the message-based section of `isErrorRetryable` match: a non-nil
`Err` whose message contains some entry of the message table. -/
def messageMatches (msgTable : List String) (cE : ClientError) : Bool :=
  match cE.Err with
  | some e => msgTable.any (fun m => stringsContains e.message m)
  | none => false

/-- isErrorRetryable (src/client_errors.go lines 97-130), parameterized
by the two package-level tables.  On the first message-table match the
source sets `Retryable = true` and RETURNS from the function, so the
status-code section below it does not run; otherwise the status-code
section runs.  (`List.any` short-circuits exactly like the source's
`return` inside the message loop.) -/
def isErrorRetryable (msgTable : List String) (statusTable : List Nat)
    (cE : ClientError) : ClientError :=
  if messageMatches msgTable cE then { cE with Retryable := true }
  else statusCodeCheck statusTable cE

/-- The nil-pointer guard of `isErrorRetryable`: a nil `*ClientError` is
returned untouched. -/
def isErrorRetryablePtr (msgTable : List String) (statusTable : List Nat) :
    Option ClientError → Option ClientError
  | none => none
  | some cE => some (isErrorRetryable msgTable statusTable cE)

/-- isErrorRetryable instrumented with control flow: the boolean records
whether execution reached the status-code verification section (it does
not when the message loop's `return` fires). -/
def isErrorRetryableTraced (msgTable : List String) (statusTable : List Nat)
    (cE : ClientError) : ClientError × Bool :=
  if messageMatches msgTable cE then ({ cE with Retryable := true }, false)
  else (statusCodeCheck statusTable cE, true)

/-- Modelled from the spec: the classifier as section 4.3 prescribes it,
in which the status-code check "still must run independently" after a
message match instead of being skipped by an early return. -/
def classifySpec (msgTable : List String) (statusTable : List Nat)
    (cE : ClientError) : ClientError :=
  statusCodeCheck statusTable
    (if messageMatches msgTable cE then { cE with Retryable := true } else cE)

/-- net/http `hasPort`: does `host` end in a `:port` part. -/
def hasPort (s : Str) : Bool := lastIndexChar s ':' > lastIndexChar s ']'

/-- net/http `removeEmptyPort`: drop a bare trailing `:`. -/
def removeEmptyPort (host : Str) : Str :=
  if hasPort host then
    if host.getLast? = some ':' then host.dropLast else host
  else host

/-- net/http token bytes (RFC 7230) accepted in a method name. -/
def isTokenChar (c : Char) : Bool :=
  isAlphaNum c ||
    c ∈ ['!', '#', '$', '%', '&', '\'', '*', '+', '-', '.', '^', '_', Char.ofNat 96, '|', '~']

/-- net/http `validMethod`. -/
def validMethod (method : Str) : Bool :=
  method ≠ [] && method.all isTokenChar

/-- The URL-relevant behavior of net/http `NewRequestWithContext`:
default an empty method to GET, reject invalid methods, parse the URL,
normalize an empty port; on success `req.URL` is the parsed URL.  (The
context argument is always non-nil in the client, so the nil-context
error path is unreachable and not modeled.) -/
def newRequestURL (method url : Str) : Except GoError URL :=
  let method := if method = [] then str "GET" else method
  if ¬validMethod method then Except.error (GoError.simple "net/http: invalid method")
  else
    match Parse url with
    | Except.error e => Except.error (GoError.simple e)
    | Except.ok u => Except.ok { u with Host := removeEmptyPort u.Host }

/-- Outcome of the transport call in `executeRequest`: either a non-nil
error together with the response (possibly nil = `none`, possibly
carrying a partial status), or a response; on a response, `bodyRead` is
what reading the body would yield and `decodeResult` what decoding it
into the response object would yield. -/
inductive SendOutcome where
  | failure (err : GoError) (respStatus : Option Nat)
  | success (statusCode : Nat) (bodyRead : Except GoError Str) (decodeResult : Option GoError)
deriving Repr

/-- The part of `executeRequest` after a successful encode
(src/client.go lines 141-254): build the request, transmit, check the
status, read/decode the body, wrapping every failure in a `ClientError`. -/
def executeRequestCore (msgTable : List String) (statusTable : List Nat)
    (method url : Str) (hasResponse : Bool) (send : SendOutcome) : Option ClientError :=
  match newRequestURL method url with
  | Except.error e =>
    some { Err := some e, Retryable := false, StatusCode := 500, URL := SanitizedRawURL url }
  | Except.ok reqURL =>
    match send with
    | SendOutcome.failure err respStatus =>
      let cE : ClientError :=
        { Err := some err, Retryable := false, URL := SanitizedURL reqURL }
      let cE :=
        match respStatus with
        | some st => if st ≠ 0 then { cE with StatusCode := st } else cE
        | none => cE
      let cE :=
        if err.is GoError.deadlineExceeded then { cE with StatusCode := 408 } else cE
      some (isErrorRetryable msgTable statusTable cE)
    | SendOutcome.success status bodyRead decodeResult =>
      if status < 200 ∨ 300 ≤ status then
        match bodyRead with
        | Except.error readErr =>
          some { Err := some readErr, Retryable := false, StatusCode := 500,
                 URL := SanitizedURL reqURL }
        | Except.ok body =>
          let cE : ClientError :=
            { Err := some GoError.requestFailed, Retryable := false,
              StatusCode := status, URL := SanitizedURL reqURL }
          let cE := if body ≠ [] then { cE with ServerResponse := body } else cE
          some (isErrorRetryable msgTable statusTable cE)
      else
        if hasResponse then
          match decodeResult with
          | some decErr =>
            some { Err := some decErr, Retryable := false, StatusCode := 500,
                   URL := SanitizedURL reqURL }
          | none => none
        else none

/-- executeRequest (src/client.go lines 115-255): the encode stage, then
`executeRequestCore`.  `hasRequest`/`hasResponse` model whether the
`request`/`response` interface arguments are non-nil; `encodeResult` is
the outcome of `c.encode` (consulted only when a request body exists);
`send` is the outcome of the transport call.  The return value is
`none` on success, `some` of the `ClientError` otherwise. -/
def executeRequest (msgTable : List String) (statusTable : List Nat)
    (method url : Str) (hasRequest hasResponse : Bool)
    (encodeResult : Option GoError) (send : SendOutcome) : Option ClientError :=
  if hasRequest then
    match encodeResult with
    | some e =>
      some { Err := some e, Retryable := false, StatusCode := 500, URL := SanitizedRawURL url }
    | none => executeRequestCore msgTable statusTable method url hasResponse send
  else executeRequestCore msgTable statusTable method url hasResponse send

/-- The bytes `getScheme` accepts into a scheme. -/
def isSchemeByte (c : Char) : Bool :=
  isUpperAZ c || isLowerAZ c || isDigit09 c || c = '+' || c = '-' || c = '.'

/-- One serialized `key=value` chunk of `Values.encode`. -/
def chunkOf (k val : Str) : Str :=
  escape Encoding.queryComponent k ++ '=' :: escape Encoding.queryComponent val

/-- The chunk sequence `Values.encode` emits for an association list. -/
def chunksOf (w : Values) : List Str :=
  w.foldr (fun p acc => p.2.map (fun val => chunkOf p.1 val) ++ acc) []

/-- The loop body of `parseQueryGo`, named for reasoning. -/
def pqStep (acc : Values × Bool) (chunk : Str) : Values × Bool :=
  if chunk.contains ';' then (acc.1, true)
  else if chunk = [] then acc
  else
    let kv := cutChar chunk '='
    match unescape Encoding.queryComponent kv.1,
          unescape Encoding.queryComponent kv.2.1 with
    | Except.ok k, Except.ok v => (valuesAdd acc.1 k v, acc.2)
    | _, _ => (acc.1, true)

/-- The concrete base URL record for the composition witness:
the parse of "http://h/p?b=2&a=1". -/
def c9Base : URL :=
  { Scheme := str "http", Host := str "h", Path := str "/p", RawQuery := str "b=2&a=1" }

/-- The URL record the sanitizer output re-parses to, before `setPath`
(schemes are lower-cased by the parser, hence `toLowerStr`). -/
def sanBase (p : URL) : URL :=
  { Scheme := toLowerStr p.Scheme, User := none, Host := p.Host,
    ForceQuery := false, RawQuery := [] }

/-- The URL record the sanitizer output re-parses to. -/
def sanParsed (p : URL) : URL :=
  { Scheme := toLowerStr p.Scheme, User := none, Host := p.Host,
    Path := p.Path,
    RawPath := if escape Encoding.path p.Path = p.Path then [] else p.Path,
    ForceQuery := false, RawQuery := [] }

theorem foldl_status_or (st : Nat) (l : List Nat) (init : Bool) :
    l.foldl (fun r code => if st = code then true else r) init
      = (init || l.any (fun c => decide (st = c))) := by
  induction l generalizing init with
  | nil => simp
  | cons a l ih =>
    rw [List.foldl_cons, ih, List.any_cons]
    by_cases h : st = a
    · simp [h]
    · simp [h]

theorem statusCodeCheck_eq (t : List Nat) (cE : ClientError) :
    statusCodeCheck t cE =
      { cE with Retryable :=
          cE.Retryable ||
            (decide (cE.StatusCode ≠ 0) && t.any (fun c => decide (cE.StatusCode = c))) } := by
  obtain ⟨e, msg, r, sr, sc, u⟩ := cE
  unfold statusCodeCheck
  by_cases h : sc ≠ 0
  · rw [if_pos (by simpa using h), foldl_status_or]
    simp [h]
  · simp only [not_not] at h
    subst h
    simp

theorem isErrorRetryable_eq (m : List String) (t : List Nat) (cE : ClientError) :
    isErrorRetryable m t cE =
      { cE with Retryable :=
          cE.Retryable || messageMatches m cE ||
            (decide (cE.StatusCode ≠ 0) && t.any (fun c => decide (cE.StatusCode = c))) } := by
  unfold isErrorRetryable
  by_cases h : messageMatches m cE = true
  · simp [h]
  · simp only [Bool.not_eq_true] at h
    simp [h, statusCodeCheck_eq]

theorem isErrorRetryable_URL (m : List String) (t : List Nat) (cE : ClientError) :
    (isErrorRetryable m t cE).URL = cE.URL := by
  rw [isErrorRetryable_eq]

theorem isErrorRetryable_StatusCode (m : List String) (t : List Nat) (cE : ClientError) :
    (isErrorRetryable m t cE).StatusCode = cE.StatusCode := by
  rw [isErrorRetryable_eq]

theorem isErrorRetryable_Err (m : List String) (t : List Nat) (cE : ClientError) :
    (isErrorRetryable m t cE).Err = cE.Err := by
  rw [isErrorRetryable_eq]

theorem isErrorRetryable_ServerResponse (m : List String) (t : List Nat) (cE : ClientError) :
    (isErrorRetryable m t cE).ServerResponse = cE.ServerResponse := by
  rw [isErrorRetryable_eq]

/-- C4: the classifier is monotonic in `Retryable`: its result is the OR
of the incoming flag, the message-table check, and the status-table
check, so either check alone can set the flag and neither can clear it;
and with a zero status code and a nil cause the error is returned
untouched (in particular `Retryable` stays `false`). -/
theorem isErrorRetryable_monotone (m : List String) (t : List Nat) (cE : ClientError) :
    (isErrorRetryable m t cE).Retryable =
        (cE.Retryable || messageMatches m cE ||
          (decide (cE.StatusCode ≠ 0) && t.any (fun c => decide (cE.StatusCode = c)))) ∧
      (cE.Retryable = true → (isErrorRetryable m t cE).Retryable = true) ∧
      (cE.StatusCode = 0 → cE.Err = none → isErrorRetryable m t cE = cE) := by
  refine ⟨by rw [isErrorRetryable_eq], fun h => by rw [isErrorRetryable_eq]; simp [h], ?_⟩
  intro h0 hnil
  rw [isErrorRetryable_eq]
  obtain ⟨e, msg, r, sr, sc, u⟩ := cE
  simp only at h0 hnil
  subst h0
  subst hnil
  simp [messageMatches]

theorem isErrorRetryable_monotone_witness :
    (isErrorRetryable ["transient"] RetryableStatusCodes
        { Err := some (GoError.simple "transient failure"), Retryable := true,
          StatusCode := 403 }).Retryable = true ∧
      isErrorRetryable RetryableErrorMessages RetryableStatusCodes
          { Err := none, StatusCode := 0 } =
        { Err := none, StatusCode := 0 } :=
  ⟨(isErrorRetryable_monotone ["transient"] RetryableStatusCodes
      { Err := some (GoError.simple "transient failure"), Retryable := true,
        StatusCode := 403 }).2.1 rfl,
   (isErrorRetryable_monotone RetryableErrorMessages RetryableStatusCodes
      { Err := none, StatusCode := 0 }).2.2 rfl rfl⟩

/-- C7 counterexample: with a message table containing "connection
reset" and an error whose cause message matches it while carrying
status 503, the classifier's message check matches and the function
returns without executing the status-code check (the traced flag is
`false`), refuting "the implementation does not early-return after a
message match: ... both checks are executed". -/
theorem classifier_early_return_counterexample :
    messageMatches ["connection reset"] { Err := some (GoError.simple "read tcp: connection reset by peer"), StatusCode := 503 } = true ∧
      (isErrorRetryableTraced ["connection reset"] RetryableStatusCodes
        { Err := some (GoError.simple "read tcp: connection reset by peer"), StatusCode := 503 }).2 = false := by
  decide

/-- C7 amended: the classifier early-returns after a message match, so
the status-code check does not run in that case; nevertheless its
result always equals the result of the spec's run-both-checks
classifier, because the message match already set `Retryable = true`
and the status check can only set that same flag. -/
theorem classifier_result_matches_spec (m : List String) (t : List Nat) (cE : ClientError) :
    isErrorRetryable m t cE = classifySpec m t cE ∧
      (messageMatches m cE = true →
        isErrorRetryableTraced m t cE = (isErrorRetryable m t cE, false)) := by
  constructor
  · unfold classifySpec
    by_cases h : messageMatches m cE = true
    · simp only [h, if_pos rfl, isErrorRetryable, statusCodeCheck_eq]
      simp
    · simp only [Bool.not_eq_true] at h
      simp [isErrorRetryable, h]
  · intro h
    simp [isErrorRetryableTraced, isErrorRetryable, h]

theorem classifier_result_matches_spec_witness :
    isErrorRetryable ["connection reset"] RetryableStatusCodes
        { Err := some (GoError.simple "read tcp: connection reset by peer"), StatusCode := 503 } =
      classifySpec ["connection reset"] RetryableStatusCodes
        { Err := some (GoError.simple "read tcp: connection reset by peer"), StatusCode := 503 } ∧
      isErrorRetryableTraced ["connection reset"] RetryableStatusCodes
          { Err := some (GoError.simple "read tcp: connection reset by peer"), StatusCode := 503 } =
        (isErrorRetryable ["connection reset"] RetryableStatusCodes
          { Err := some (GoError.simple "read tcp: connection reset by peer"), StatusCode := 503 }, false) :=
  ⟨(classifier_result_matches_spec ["connection reset"] RetryableStatusCodes
      { Err := some (GoError.simple "read tcp: connection reset by peer"), StatusCode := 503 }).1,
   (classifier_result_matches_spec ["connection reset"] RetryableStatusCodes
      { Err := some (GoError.simple "read tcp: connection reset by peer"), StatusCode := 503 }).2
     (by decide)⟩

/-- C8: every encode, request-construction, body-read, or decode
failure yields a `ClientError` with status 500, `Retryable = false`,
and the stage's own error as the cause (none of these paths runs the
classifier). -/
theorem executeRequest_internal_failures_500
    (msgTable : List String) (statusTable : List Nat) (method url : Str) :
    (∀ (hasResponse : Bool) (e : GoError) (send : SendOutcome),
      executeRequest msgTable statusTable method url true hasResponse (some e) send =
        some { Err := some e, Retryable := false, StatusCode := 500,
               URL := SanitizedRawURL url }) ∧
    (∀ (hasRequest hasResponse : Bool) (encodeResult : Option GoError)
        (send : SendOutcome) (e : GoError),
      (hasRequest = true → encodeResult = none) →
      newRequestURL method url = Except.error e →
      executeRequest msgTable statusTable method url hasRequest hasResponse encodeResult send =
        some { Err := some e, Retryable := false, StatusCode := 500,
               URL := SanitizedRawURL url }) ∧
    (∀ (hasRequest hasResponse : Bool) (encodeResult : Option GoError)
        (reqURL : URL) (status : Nat) (readErr : GoError) (decodeResult : Option GoError),
      (hasRequest = true → encodeResult = none) →
      newRequestURL method url = Except.ok reqURL →
      (status < 200 ∨ 300 ≤ status) →
      executeRequest msgTable statusTable method url hasRequest hasResponse encodeResult
          (SendOutcome.success status (Except.error readErr) decodeResult) =
        some { Err := some readErr, Retryable := false, StatusCode := 500,
               URL := SanitizedURL reqURL }) ∧
    (∀ (hasRequest : Bool) (encodeResult : Option GoError)
        (reqURL : URL) (status : Nat) (body : Str) (decErr : GoError),
      (hasRequest = true → encodeResult = none) →
      newRequestURL method url = Except.ok reqURL →
      200 ≤ status → status < 300 →
      executeRequest msgTable statusTable method url hasRequest true encodeResult
          (SendOutcome.success status (Except.ok body) (some decErr)) =
        some { Err := some decErr, Retryable := false, StatusCode := 500,
               URL := SanitizedURL reqURL }) := by
  refine ⟨fun hasResponse e send => rfl, ?_, ?_, ?_⟩
  · intro hasRequest hasResponse encodeResult send e henc hbuild
    cases hasRequest with
    | true =>
      rw [henc rfl]
      simp [executeRequest, executeRequestCore, hbuild]
    | false =>
      simp [executeRequest, executeRequestCore, hbuild]
  · intro hasRequest hasResponse encodeResult reqURL status readErr decodeResult henc hbuild hst
    cases hasRequest with
    | true =>
      rw [henc rfl]
      simp [executeRequest, executeRequestCore, hbuild, if_pos hst]
    | false =>
      simp [executeRequest, executeRequestCore, hbuild, if_pos hst]
  · intro hasRequest encodeResult reqURL status body decErr henc hbuild h1 h2
    have hst : ¬(status < 200 ∨ 300 ≤ status) := by omega
    cases hasRequest with
    | true =>
      rw [henc rfl]
      simp [executeRequest, executeRequestCore, hbuild, if_neg hst]
    | false =>
      simp [executeRequest, executeRequestCore, hbuild, if_neg hst]

theorem executeRequest_internal_failures_500_witness :
    (executeRequest RetryableErrorMessages RetryableStatusCodes (str "GET") (str "http://h/p?x=1")
        true true (some (GoError.simple "couldn't encode JSON document: boom"))
        (SendOutcome.success 200 (Except.ok []) none) =
      some { Err := some (GoError.simple "couldn't encode JSON document: boom"),
             Retryable := false, StatusCode := 500,
             URL := SanitizedRawURL (str "http://h/p?x=1") }) ∧
    (executeRequest RetryableErrorMessages RetryableStatusCodes (str " ") (str "http://h/p")
        false true none (SendOutcome.success 200 (Except.ok []) none) =
      some { Err := some (GoError.simple "net/http: invalid method"),
             Retryable := false, StatusCode := 500,
             URL := SanitizedRawURL (str "http://h/p") }) ∧
    (executeRequest RetryableErrorMessages RetryableStatusCodes (str "GET") (str "http://h/p")
        false true none
        (SendOutcome.success 404 (Except.error (GoError.simple "read failed")) none) =
      some { Err := some (GoError.simple "read failed"),
             Retryable := false, StatusCode := 500,
             URL := SanitizedURL { Scheme := str "http", Host := str "h", Path := str "/p" } }) ∧
    (executeRequest RetryableErrorMessages RetryableStatusCodes (str "GET") (str "http://h/p")
        false true none
        (SendOutcome.success 200 (Except.ok [])
          (some (GoError.simple "couldn't decode JSON document: x"))) =
      some { Err := some (GoError.simple "couldn't decode JSON document: x"),
             Retryable := false, StatusCode := 500,
             URL := SanitizedURL { Scheme := str "http", Host := str "h", Path := str "/p" } }) :=
  ⟨(executeRequest_internal_failures_500 RetryableErrorMessages RetryableStatusCodes
      (str "GET") (str "http://h/p?x=1")).1 true
      (GoError.simple "couldn't encode JSON document: boom")
      (SendOutcome.success 200 (Except.ok []) none),
   (executeRequest_internal_failures_500 RetryableErrorMessages RetryableStatusCodes
      (str " ") (str "http://h/p")).2.1 false true none
      (SendOutcome.success 200 (Except.ok []) none)
      (GoError.simple "net/http: invalid method") (by simp) (by rfl),
   (executeRequest_internal_failures_500 RetryableErrorMessages RetryableStatusCodes
      (str "GET") (str "http://h/p")).2.2.1 false true none
      { Scheme := str "http", Host := str "h", Path := str "/p" } 404
      (GoError.simple "read failed") none (by simp) (by rfl) (by omega),
   (executeRequest_internal_failures_500 RetryableErrorMessages RetryableStatusCodes
      (str "GET") (str "http://h/p")).2.2.2 false none
      { Scheme := str "http", Host := str "h", Path := str "/p" } 200 []
      (GoError.simple "couldn't decode JSON document: x") (by simp) (by rfl)
      (by omega) (by omega)⟩

/-- C5: the claim that a key whose value list is non-nil but empty is
silently skipped is wrong about the code: the guard in `generateURL`
is `k != "" && (v != nil && v[0] != "")`, which indexes `v[0]` whenever
`v` is non-nil, so a non-nil zero-length value list makes the function
panic with an index-out-of-range runtime error instead of returning
normally. -/
theorem generateURL_empty_value_list_panics :
    generateURL (str "http://example.com") [] [(str "k", some [])] =
      GoResult.panicked "runtime error: index out of range [0] with length 0" := by
  decide

theorem executeRequest_encode_ok (m : List String) (t : List Nat) (method url : Str)
    (hasRequest hasResponse : Bool) (encodeResult : Option GoError) (send : SendOutcome)
    (henc : hasRequest = true → encodeResult = none) :
    executeRequest m t method url hasRequest hasResponse encodeResult send =
      executeRequestCore m t method url hasResponse send := by
  cases hasRequest with
  | true => rw [henc rfl]; rfl
  | false => rfl

theorem any_eq_contains (l : List Nat) (st : Nat) :
    l.any (fun c => decide (st = c)) = l.contains st := by
  induction l with
  | nil => rfl
  | cons a l ih => simp [List.any_cons, ih, List.contains_cons, eq_comm]

/-- C2: a transport failure whose cause chain contains
`context.DeadlineExceeded` always produces status 408, whatever status
a partial response carried, and under the default tables the error is
retryable (408 is in the default status table). -/
theorem executeRequest_deadline_forces_408
    (method url : Str) (hasRequest hasResponse : Bool)
    (encodeResult : Option GoError) (err : GoError) (respStatus : Option Nat) (reqURL : URL)
    (henc : hasRequest = true → encodeResult = none)
    (hbuild : newRequestURL method url = Except.ok reqURL)
    (hdl : err.is GoError.deadlineExceeded = true) :
    ∃ cE, executeRequest RetryableErrorMessages RetryableStatusCodes method url
        hasRequest hasResponse encodeResult (SendOutcome.failure err respStatus) = some cE ∧
      cE.StatusCode = 408 ∧ cE.Retryable = true := by
  have hcore : ∀ cE0 : ClientError,
      (isErrorRetryable RetryableErrorMessages RetryableStatusCodes
          { cE0 with StatusCode := 408 }).StatusCode = 408 ∧
      (isErrorRetryable RetryableErrorMessages RetryableStatusCodes
          { cE0 with StatusCode := 408 }).Retryable = true := by
    intro cE0
    rw [isErrorRetryable_eq]
    refine ⟨rfl, ?_⟩
    simp [messageMatches, RetryableErrorMessages, RetryableStatusCodes]
  have hEq : ∃ cE2 : ClientError,
      executeRequest RetryableErrorMessages RetryableStatusCodes method url
          hasRequest hasResponse encodeResult (SendOutcome.failure err respStatus) =
        some (isErrorRetryable RetryableErrorMessages RetryableStatusCodes
          { cE2 with StatusCode := 408 }) := by
    rw [executeRequest_encode_ok _ _ _ _ _ _ _ _ henc]
    unfold executeRequestCore
    simp only [hbuild, hdl, if_true]
    exact ⟨_, rfl⟩
  obtain ⟨cE2, hEq⟩ := hEq
  exact ⟨_, hEq, (hcore cE2).1, (hcore cE2).2⟩

theorem executeRequest_deadline_forces_408_witness :
    ∃ cE, executeRequest RetryableErrorMessages RetryableStatusCodes (str "GET")
        (str "http://h/p?tok=secret") false true none
        (SendOutcome.failure
          (GoError.wrap "Get http://h/p?tok=secret: context deadline exceeded"
            GoError.deadlineExceeded)
          (some 200)) = some cE ∧
      cE.StatusCode = 408 ∧ cE.Retryable = true :=
  executeRequest_deadline_forces_408 (str "GET") (str "http://h/p?tok=secret") false true none
    (GoError.wrap "Get http://h/p?tok=secret: context deadline exceeded" GoError.deadlineExceeded)
    (some 200) { Scheme := str "http", Host := str "h", Path := str "/p",
                 RawQuery := str "tok=secret" }
    (by simp) (by rfl) (by decide)

/-- C3: a response with status outside [200, 300) whose body reads
successfully yields an error whose cause is the `ErrRequestFailed`
sentinel, whose status is the response status, whose `ServerResponse`
is exactly the body text (so it is left at its empty default iff the
body was empty), and whose retryability is membership of the status in
the default retryable-status table (hence false for 404 and true
for 503). -/
theorem executeRequest_non2xx_error_shape
    (method url : Str) (hasRequest hasResponse : Bool)
    (encodeResult : Option GoError) (status : Nat) (body : Str)
    (decodeResult : Option GoError) (reqURL : URL)
    (henc : hasRequest = true → encodeResult = none)
    (hbuild : newRequestURL method url = Except.ok reqURL)
    (hst : status < 200 ∨ 300 ≤ status) :
    ∃ cE, executeRequest RetryableErrorMessages RetryableStatusCodes method url
        hasRequest hasResponse encodeResult
        (SendOutcome.success status (Except.ok body) decodeResult) = some cE ∧
      cE.Err = some GoError.requestFailed ∧ cE.StatusCode = status ∧
      cE.ServerResponse = body ∧
      cE.Retryable = RetryableStatusCodes.contains status := by
  have hshape : ∀ cE0 : ClientError, cE0.Err = some GoError.requestFailed →
      cE0.StatusCode = status → cE0.Retryable = false →
      (isErrorRetryable RetryableErrorMessages RetryableStatusCodes cE0).Err =
          some GoError.requestFailed ∧
        (isErrorRetryable RetryableErrorMessages RetryableStatusCodes cE0).StatusCode = status ∧
        (isErrorRetryable RetryableErrorMessages RetryableStatusCodes cE0).Retryable =
          RetryableStatusCodes.contains status := by
    intro cE0 hErr hSt hR
    rw [isErrorRetryable_eq]
    refine ⟨hErr, hSt, ?_⟩
    simp only [hSt, hR, messageMatches, hErr, RetryableErrorMessages, List.any_nil,
      Bool.or_false, Bool.false_or]
    by_cases h0 : status = 0
    · subst h0
      decide
    · have hd : decide (status ≠ 0) = true := by simp [h0]
      rw [hd, Bool.true_and, any_eq_contains]
  have hred : executeRequest RetryableErrorMessages RetryableStatusCodes method url
      hasRequest hasResponse encodeResult
      (SendOutcome.success status (Except.ok body) decodeResult) =
      some (isErrorRetryable RetryableErrorMessages RetryableStatusCodes
        (if body ≠ [] then
          { Err := some GoError.requestFailed, Retryable := false, StatusCode := status,
            URL := SanitizedURL reqURL, ServerResponse := body }
         else
          { Err := some GoError.requestFailed, Retryable := false, StatusCode := status,
            URL := SanitizedURL reqURL })) := by
    rw [executeRequest_encode_ok _ _ _ _ _ _ _ _ henc]
    unfold executeRequestCore
    simp only [hbuild, if_pos hst]
  by_cases hb : body = []
  · rw [hred]
    simp only [hb, ne_eq, not_true_eq_false, if_false]
    have h := hshape
      { Err := some GoError.requestFailed, Retryable := false,
        StatusCode := status, URL := SanitizedURL reqURL }
      rfl rfl rfl
    exact ⟨_, rfl, h.1, h.2.1, by rw [isErrorRetryable_ServerResponse], h.2.2⟩
  · rw [hred]
    simp only [ne_eq, hb, not_false_eq_true, if_true]
    refine ⟨_, rfl, ?_⟩
    have h := hshape
      { Err := some GoError.requestFailed, Retryable := false,
        StatusCode := status, URL := SanitizedURL reqURL, ServerResponse := body }
      rfl rfl rfl
    exact ⟨h.1, h.2.1, by rw [isErrorRetryable_ServerResponse], h.2.2⟩

theorem executeRequest_non2xx_error_shape_witness :
    ∃ cE, executeRequest RetryableErrorMessages RetryableStatusCodes (str "GET")
        (str "http://h/p") false true none
        (SendOutcome.success 404 (Except.ok (str "not found")) none) = some cE ∧
      cE.Err = some GoError.requestFailed ∧ cE.StatusCode = 404 ∧
      cE.ServerResponse = str "not found" ∧
      cE.Retryable = RetryableStatusCodes.contains 404 :=
  executeRequest_non2xx_error_shape (str "GET") (str "http://h/p") false true none 404
    (str "not found") none { Scheme := str "http", Host := str "h", Path := str "/p" }
    (by simp) (by rfl) (by omega)

theorem executeRequestCore_url (m : List String) (t : List Nat) (method url : Str)
    (hasResponse : Bool) (send : SendOutcome) (cE : ClientError)
    (h : executeRequestCore m t method url hasResponse send = some cE) :
    cE.URL = SanitizedRawURL url ∨
      ∃ u, newRequestURL method url = Except.ok u ∧ cE.URL = SanitizedURL u := by
  unfold executeRequestCore at h
  cases hn : newRequestURL method url with
  | error e =>
    simp only [hn] at h
    injection h with h
    subst h
    left
    rfl
  | ok u =>
    right
    refine ⟨u, rfl, ?_⟩
    cases send with
    | failure err respStatus =>
      simp only [hn] at h
      injection h with h
      subst h
      rw [isErrorRetryable_URL]
      split
      · split
        · split <;> rfl
        · rfl
      · split
        · split <;> rfl
        · rfl
    | success status bodyRead decodeResult =>
      simp only [hn] at h
      by_cases hst : status < 200 ∨ 300 ≤ status
      · rw [if_pos hst] at h
        cases bodyRead with
        | error readErr =>
          injection h with h
          subst h
          rfl
        | ok body =>
          injection h with h
          subst h
          rw [isErrorRetryable_URL]
          split <;> rfl
      · rw [if_neg hst] at h
        cases hasResponse with
        | true =>
          cases decodeResult with
          | some decErr =>
            injection h with h
            subst h
            rfl
          | none => cases h
        | false => cases h

/-- C1: whenever `executeRequest` returns an error, the error's `URL`
field is the sanitized form of the request URL: the raw argument URL
passed through `SanitizedRawURL` (encode and request-construction
failures), or the built request's parsed URL passed through
`SanitizedURL` (transport, non-2xx, body-read and decode failures) —
in both cases the query string and fragment are stripped. -/
theorem executeRequest_url_always_sanitized
    (msgTable : List String) (statusTable : List Nat) (method url : Str)
    (hasRequest hasResponse : Bool) (encodeResult : Option GoError)
    (send : SendOutcome) (cE : ClientError)
    (h : executeRequest msgTable statusTable method url hasRequest hasResponse
      encodeResult send = some cE) :
    cE.URL = SanitizedRawURL url ∨
      ∃ u, newRequestURL method url = Except.ok u ∧ cE.URL = SanitizedURL u := by
  unfold executeRequest at h
  cases hasRequest with
  | true =>
    simp only [if_true] at h
    cases encodeResult with
    | some e =>
      injection h with h
      subst h
      left
      rfl
    | none => exact executeRequestCore_url _ _ _ _ _ _ _ h
  | false =>
    simp only [Bool.false_eq_true, if_false] at h
    exact executeRequestCore_url _ _ _ _ _ _ _ h

theorem executeRequest_url_always_sanitized_witness :
    ∃ cE, executeRequest RetryableErrorMessages RetryableStatusCodes (str "GET")
        (str "http://h/p?tok=secret") false true none
        (SendOutcome.success 404 (Except.ok (str "denied")) none) = some cE ∧
      (cE.URL = SanitizedRawURL (str "http://h/p?tok=secret") ∨
        ∃ u, newRequestURL (str "GET") (str "http://h/p?tok=secret") = Except.ok u ∧
          cE.URL = SanitizedURL u) := by
  refine ⟨_, rfl, ?_⟩
  exact executeRequest_url_always_sanitized RetryableErrorMessages RetryableStatusCodes
    (str "GET") (str "http://h/p?tok=secret") false true none
    (SendOutcome.success 404 (Except.ok (str "denied")) none) _ rfl

theorem cutChar_found_eq (s : Str) (sep : Char) (h : (cutChar s sep).2.2 = true) :
    s = (cutChar s sep).1 ++ sep :: (cutChar s sep).2.1 := by
  induction s with
  | nil => simp [cutChar] at h
  | cons c rest ih =>
    by_cases hc : c = sep
    · simp [cutChar, hc]
    · simp only [cutChar, if_neg hc] at h ⊢
      rw [List.cons_append]
      exact congrArg (c :: ·) (ih h)

theorem cutChar_not_found (s : Str) (sep : Char) (h : (cutChar s sep).2.2 = false) :
    (cutChar s sep).1 = s ∧ (cutChar s sep).2.1 = [] ∧ sep ∉ s := by
  induction s with
  | nil => simp [cutChar]
  | cons c rest ih =>
    by_cases hc : c = sep
    · simp [cutChar, hc] at h
    · simp only [cutChar, if_neg hc] at h ⊢
      obtain ⟨h1, h2, h3⟩ := ih h
      refine ⟨by rw [h1], h2, ?_⟩
      simp only [List.mem_cons, not_or]
      exact ⟨fun he => hc he.symm, h3⟩

theorem cutChar_before_not_mem (s : Str) (sep : Char) : sep ∉ (cutChar s sep).1 := by
  induction s with
  | nil => simp [cutChar]
  | cons c rest ih =>
    by_cases hc : c = sep
    · simp [cutChar, hc]
    · simp only [cutChar, if_neg hc, List.mem_cons, not_or]
      exact ⟨fun he => hc he.symm, ih⟩

theorem cutChar_before_subset (s : Str) (sep : Char) : ∀ c ∈ (cutChar s sep).1, c ∈ s := by
  intro c hc
  by_cases h : (cutChar s sep).2.2 = true
  · rw [cutChar_found_eq s sep h]
    exact List.mem_append_left _ hc
  · rw [← (cutChar_not_found s sep (by simpa using h)).1]
    exact hc

theorem cutChar_after_subset (s : Str) (sep : Char) : ∀ c ∈ (cutChar s sep).2.1, c ∈ s := by
  intro c hc
  by_cases h : (cutChar s sep).2.2 = true
  · rw [cutChar_found_eq s sep h]
    exact List.mem_append_right _ (List.mem_cons_of_mem _ hc)
  · rw [(cutChar_not_found s sep (by simpa using h)).2.1] at hc
    cases hc

theorem splitChar_fst_not_mem (s : Str) (sep : Char) (cutc : Bool) :
    sep ∉ (splitChar s sep cutc).1 := by
  cases h : (cutChar s sep).2.2 with
  | true =>
    cases cutc <;> simp [splitChar, h] <;> exact cutChar_before_not_mem s sep
  | false =>
    simp only [splitChar, h, Bool.false_eq_true, if_false]
    exact (cutChar_not_found s sep h).2.2

theorem splitChar_fst_subset (s : Str) (sep : Char) (cutc : Bool) :
    ∀ c ∈ (splitChar s sep cutc).1, c ∈ s := by
  intro c hc
  cases h : (cutChar s sep).2.2 with
  | true =>
    cases cutc <;> simp only [splitChar, h, if_true] at hc <;>
      exact cutChar_before_subset s sep c hc
  | false =>
    simp only [splitChar, h, Bool.false_eq_true, if_false] at hc
    exact hc

theorem splitChar_snd_subset_true (s : Str) (sep : Char) :
    ∀ c ∈ (splitChar s sep true).2, c ∈ s := by
  intro c hc
  cases h : (cutChar s sep).2.2 with
  | true =>
    simp only [splitChar, h, if_true] at hc
    exact cutChar_after_subset s sep c hc
  | false =>
    simp only [splitChar, h, Bool.false_eq_true, if_false] at hc
    simp at hc

theorem cutLastChar_none_not_mem (s : Str) (sep : Char) (h : cutLastChar s sep = none) :
    sep ∉ s := by
  induction s with
  | nil => simp
  | cons c rest ih =>
    simp only [cutLastChar] at h
    cases hr : cutLastChar rest sep with
    | some p => rw [hr] at h; cases h
    | none =>
      rw [hr] at h
      by_cases hc : c = sep
      · rw [if_pos hc] at h; cases h
      · rw [if_neg hc] at h
        simp only [List.mem_cons, not_or]
        exact ⟨fun he => hc he.symm, ih hr⟩

theorem cutLastChar_eq (s : Str) (sep : Char) (b a : Str)
    (h : cutLastChar s sep = some (b, a)) : s = b ++ sep :: a ∧ sep ∉ a := by
  induction s generalizing b a with
  | nil => simp [cutLastChar] at h
  | cons c rest ih =>
    simp only [cutLastChar] at h
    cases hr : cutLastChar rest sep with
    | some p =>
      rw [hr] at h
      obtain ⟨b', a'⟩ := p
      rw [Option.some.injEq, Prod.mk.injEq] at h
      obtain ⟨hb, ha⟩ := h
      subst hb
      subst ha
      obtain ⟨hsplit, hnmem⟩ := ih b' a' hr
      exact ⟨by rw [List.cons_append, ← hsplit], hnmem⟩
    | none =>
      rw [hr] at h
      by_cases hc : c = sep
      · rw [if_pos hc, Option.some.injEq, Prod.mk.injEq] at h
        obtain ⟨hb, ha⟩ := h
        subst hb
        subst ha
        subst hc
        exact ⟨rfl, cutLastChar_none_not_mem rest c hr⟩
      · rw [if_neg hc] at h
        cases h

theorem unhex_lt (c : Char) : unhex c < 16 := by
  unfold unhex
  split
  · rename_i h
    have h2 : c.toNat ≤ 57 := of_decide_eq_true (Bool.and_elim_right h)
    show c.toNat - 48 < 16
    omega
  · split
    · rename_i h
      have h2 : c.toNat ≤ 102 := of_decide_eq_true (Bool.and_elim_right h)
      have h1 : 97 ≤ c.toNat := of_decide_eq_true (Bool.and_elim_left h)
      show c.toNat - 97 + 10 < 16
      omega
    · split
      · rename_i h
        have h2 : c.toNat ≤ 70 := of_decide_eq_true (Bool.and_elim_right h)
        have h1 : 65 ≤ c.toNat := of_decide_eq_true (Bool.and_elim_left h)
        show c.toNat - 65 + 10 < 16
        omega
      · omega

theorem char_ofNat_toNat {n : Nat} (h : n < 0xd800) : (Char.ofNat n).toNat = n := by
  have hv : n.isValidChar := Or.inl h
  simp [Char.ofNat, hv]
  rfl

theorem char_ofNat_ne {n : Nat} (m : Char) (h : n < 0xd800) (hne : n ≠ m.toNat) :
    Char.ofNat n ≠ m := by
  intro he
  exact hne (by rw [← char_ofNat_toNat h, he])

theorem unescape_provenance (mode : Encoding)
    (hm : mode = Encoding.host ∨ mode = Encoding.zone) (s t : Str)
    (h : unescape mode s = Except.ok t) :
    ∀ c ∈ t, c ∈ s ∨ c = '%' ∨ c = ' ' ∨ 0x80 ≤ c.toNat ∨
      shouldEscape c Encoding.host = false := by
  have hv : ∀ c1 c2 : Char, unhex c1 * 16 + unhex c2 < 0xd800 := by
    intro c1 c2
    have := unhex_lt c1
    have := unhex_lt c2
    omega
  induction s using unescape.induct mode generalizing t with
  | case1 =>
    simp only [unescape, Except.ok.injEq] at h
    subst h
    intro c hc
    cases hc
  | case2 c1 c2 rest2 hhex hrej =>
    simp only [unescape, hhex, hrej] at h
    simp at h
  | case3 c1 c2 rest2 hhex hrej1 hrej2 =>
    simp only [Bool.not_eq_true] at hrej1
    simp only [unescape, hhex, hrej1, hrej2] at h
    simp at h
  | case4 c1 c2 rest2 hhex hrej1 hrej2 ih =>
    simp only [Bool.not_eq_true] at hrej1 hrej2
    simp only [unescape, hhex, hrej1, hrej2, Bool.false_eq_true, if_false, if_true] at h
    cases hu : unescape mode rest2 with
    | error e => rw [hu] at h; simp [Except.map] at h
    | ok t' =>
      rw [hu] at h
      simp only [Except.map, Except.ok.injEq] at h
      subst h
      intro c hc
      rcases List.mem_cons.mp hc with hc | hc
      · subst hc
        rcases hm with hmode | hmode
        · subst hmode
          simp only [decide_eq_true_eq, Bool.and_eq_false_iff, decide_eq_false_iff_not,
            not_not, not_lt] at hrej1
          rcases hrej1 with (h8 | h8) | h8
          · simp at h8
          · right; right; right; left
            rw [char_ofNat_toNat (hv c1 c2)]
            have := unhex_lt c2
            omega
          · obtain ⟨h25a, h25b⟩ := h8
            subst h25a
            subst h25b
            right; left
            decide
        · subst hmode
          simp only [decide_eq_true_eq, Bool.and_eq_false_iff, decide_eq_false_iff_not,
            not_not, not_ne_iff] at hrej2
          rcases hrej2 with ((h25 | h25) | h32) | hse
          · simp at h25
          · obtain ⟨h25a, h25b⟩ := h25
            subst h25a
            subst h25b
            right; left
            decide
          · rw [h32]
            right; right; left
            decide
          · right; right; right; right
            simpa using hse
      · rcases ih t' hu c hc with hin | hrest
        · left
          exact List.mem_cons_of_mem _ (List.mem_cons_of_mem _ (List.mem_cons_of_mem _ hin))
        · exact Or.inr hrest
  | case5 c1 c2 rest2 hhex =>
    simp only [Bool.not_eq_true] at hhex
    simp only [unescape, hhex] at h
    simp at h
  | case6 rest hshort =>
    cases rest with
    | nil => simp [unescape] at h
    | cons c1 rest' =>
      cases rest' with
      | nil => simp [unescape] at h
      | cons c2 rest2 => exact absurd rfl (fun he => hshort c1 c2 rest2 he)
  | case7 rest ih =>
    rw [unescape.eq_4] at h
    have hplus : (if mode = Encoding.queryComponent then ' ' else '+') = '+' := by
      rcases hm with hmode | hmode <;> subst hmode <;> rfl
    rw [hplus] at h
    cases hu : unescape mode rest with
    | error e => rw [hu] at h; simp [Except.map] at h
    | ok t' =>
      rw [hu] at h
      simp only [Except.map, Except.ok.injEq] at h
      subst h
      intro c hc
      rcases List.mem_cons.mp hc with hc | hc
      · subst hc
        left
        exact List.mem_cons_self _ _
      · rcases ih t' hu c hc with hin | hrest
        · exact Or.inl (List.mem_cons_of_mem _ hin)
        · exact Or.inr hrest
  | case8 c rest hp hpl hrej =>
    rw [unescape.eq_5 mode c rest hp hpl, if_pos hrej] at h
    cases h
  | case9 c rest hp hpl hrej ih =>
    rw [unescape.eq_5 mode c rest hp hpl, if_neg hrej] at h
    cases hu : unescape mode rest with
    | error e => rw [hu] at h; simp [Except.map] at h
    | ok t' =>
      rw [hu] at h
      simp only [Except.map, Except.ok.injEq] at h
      subst h
      intro d hd
      rcases List.mem_cons.mp hd with hd | hd
      · subst hd
        left
        exact List.mem_cons_self _ _
      · rcases ih t' hu d hd with hin | hrest
        · exact Or.inl (List.mem_cons_of_mem _ hin)
        · exact Or.inr hrest

/-- A byte that is not in the input, not `%`, not a space, is ASCII,
and must be host-escaped cannot appear in a host/zone unescape output. -/
theorem unescape_not_mem (mode : Encoding)
    (hm : mode = Encoding.host ∨ mode = Encoding.zone) (s t : Str) (x : Char)
    (h : unescape mode s = Except.ok t) (hmem : x ∉ s) (hp : x ≠ '%') (hsp : x ≠ ' ')
    (h80 : x.toNat < 0x80) (hesc : shouldEscape x Encoding.host = true) : x ∉ t := by
  intro hx
  rcases unescape_provenance mode hm s t h x hx with hin | hq | hq | hq | hq
  · exact hmem hin
  · exact hp hq
  · exact hsp hq
  · omega
  · rw [hesc] at hq
    cases hq

theorem parseHost_not_mem (host out : Str) (x : Char)
    (h : parseHost host = Except.ok out) (hmem : x ∉ host) (hp : x ≠ '%') (hsp : x ≠ ' ')
    (h80 : x.toNat < 0x80) (hesc : shouldEscape x Encoding.host = true) : x ∉ out := by
  unfold parseHost at h
  split at h
  · -- IP-literal branch
    cases hb : cutLastChar host ']' with
    | none => simp only [hb] at h; cases h
    | some p =>
      obtain ⟨b, a⟩ := p
      simp only [hb] at h
      obtain ⟨hsplit, _⟩ := cutLastChar_eq host ']' b a hb
      have hmb : x ∉ b := fun hx => hmem (hsplit ▸ List.mem_append_left _ hx)
      have hma : x ∉ ']' :: a := by
        intro hx
        apply hmem
        rw [hsplit]
        exact List.mem_append_right _ hx
      split at h
      · cases h
      · cases hz : indexOfSeq b (str "%25") with
        | some z =>
          simp only [hz] at h
          cases hu1 : unescape Encoding.host (b.take z) with
          | error e => simp only [hu1] at h; cases h
          | ok t1 =>
            cases hu2 : unescape Encoding.zone (b.drop z) with
            | error e => simp only [hu1, hu2] at h; cases h
            | ok t2 =>
              cases hu3 : unescape Encoding.host (']' :: a) with
              | error e => simp only [hu1, hu2, hu3] at h; cases h
              | ok t3 =>
                simp only [hu1, hu2, hu3, Except.ok.injEq] at h
                subst h
                intro hx
                rcases List.mem_append.mp hx with hx | hx
                · rcases List.mem_append.mp hx with hx | hx
                  · exact unescape_not_mem Encoding.host (Or.inl rfl) _ _ x hu1
                      (fun hin => hmb (List.take_subset z b hin)) hp hsp h80 hesc hx
                  · exact unescape_not_mem Encoding.zone (Or.inr rfl) _ _ x hu2
                      (fun hin => hmb (List.drop_subset z b hin)) hp hsp h80 hesc hx
                · exact unescape_not_mem Encoding.host (Or.inl rfl) _ _ x hu3
                    hma hp hsp h80 hesc hx
        | none =>
          simp only [hz] at h
          exact unescape_not_mem Encoding.host (Or.inl rfl) _ _ x h hmem hp hsp h80 hesc
  · -- plain host
    cases hb : cutLastChar host ':' with
    | some p =>
      obtain ⟨b, a⟩ := p
      simp only [hb] at h
      split at h
      · cases h
      · exact unescape_not_mem Encoding.host (Or.inl rfl) _ _ x h hmem hp hsp h80 hesc
    | none =>
      simp only [hb] at h
      exact unescape_not_mem Encoding.host (Or.inl rfl) _ _ x h hmem hp hsp h80 hesc

theorem parseAuthority_host_not_mem (authority : Str) (user : Option Userinfo) (host : Str)
    (x : Char) (h : parseAuthority authority = Except.ok (user, host))
    (hmem : x ∉ authority) (hp : x ≠ '%') (hsp : x ≠ ' ')
    (h80 : x.toNat < 0x80) (hesc : shouldEscape x Encoding.host = true) : x ∉ host := by
  unfold parseAuthority at h
  cases hb : cutLastChar authority '@' with
  | none =>
    simp only [hb] at h
    cases hh : parseHost authority with
    | error e => simp only [hh] at h; cases h
    | ok out =>
      simp only [hh, Except.ok.injEq, Prod.mk.injEq] at h
      rw [← h.2]
      exact parseHost_not_mem authority out x hh hmem hp hsp h80 hesc
  | some p =>
    obtain ⟨ui, hpart⟩ := p
    simp only [hb] at h
    obtain ⟨hsplit, _⟩ := cutLastChar_eq authority '@' ui hpart hb
    have hmhp : x ∉ hpart := by
      intro hx
      apply hmem
      rw [hsplit]
      exact List.mem_append_right _ (List.mem_cons_of_mem _ hx)
    cases hh : parseHost hpart with
    | error e => simp only [hh] at h; cases h
    | ok out =>
      simp only [hh] at h
      have hout : x ∉ out := parseHost_not_mem hpart out x hh hmhp hp hsp h80 hesc
      split at h
      · cases h
      · split at h
        · cases hu : unescape Encoding.userPassword ui with
          | error e => simp only [hu] at h; cases h
          | ok u1 =>
            simp only [hu, Except.ok.injEq, Prod.mk.injEq] at h
            rw [← h.2]
            exact hout
        · cases hu1 : unescape Encoding.userPassword (cutChar ui ':').1 with
          | error e => simp only [hu1] at h; cases h
          | ok u1 =>
            cases hu2 : unescape Encoding.userPassword (cutChar ui ':').2.1 with
            | error e => simp only [hu1, hu2] at h; cases h
            | ok u2 =>
              simp only [hu1, hu2, Except.ok.injEq, Prod.mk.injEq] at h
              rw [← h.2]
              exact hout

theorem getSchemeAux_chars (orig : Str) (s : Str) :
    ∀ (acc sch rest : Str), (∀ c ∈ acc, isSchemeByte c = true) →
      getSchemeAux orig acc s = Except.ok (sch, rest) →
      (∀ c ∈ sch, isSchemeByte c = true) ∧ (∀ c ∈ rest, c ∈ orig ∨ c ∈ s) := by
  induction s with
  | nil =>
    intro acc sch rest hacc h
    simp only [getSchemeAux, Except.ok.injEq, Prod.mk.injEq] at h
    obtain ⟨h1, h2⟩ := h
    subst h1
    subst h2
    exact ⟨fun c hc => absurd hc (List.not_mem_nil c), fun c hc => Or.inl hc⟩
  | cons c s ih =>
    intro acc sch rest hacc h
    unfold getSchemeAux at h
    split at h
    · rename_i hUL
      have hc : isSchemeByte c = true := by
        simp only [Bool.or_eq_true] at hUL
        simp only [isSchemeByte, Bool.or_eq_true]
        tauto
      have hacc' : ∀ d ∈ acc ++ [c], isSchemeByte d = true := by
        intro d hd
        rcases List.mem_append.mp hd with hd | hd
        · exact hacc d hd
        · rw [List.mem_singleton.mp hd]
          exact hc
      obtain ⟨ha, hb⟩ := ih (acc ++ [c]) sch rest hacc' h
      exact ⟨ha, fun d hd => (hb d hd).imp id (List.mem_cons_of_mem c)⟩
    · split at h
      · split at h
        · rw [Except.ok.injEq, Prod.mk.injEq] at h
          obtain ⟨h1, h2⟩ := h
          subst h1
          subst h2
          exact ⟨fun d hd => absurd hd (List.not_mem_nil d), fun d hd => Or.inl hd⟩
        · rename_i hDig _
          have hc : isSchemeByte c = true := by
            simp only [Bool.or_eq_true] at hDig
            simp only [isSchemeByte, Bool.or_eq_true]
            tauto
          have hacc' : ∀ d ∈ acc ++ [c], isSchemeByte d = true := by
            intro d hd
            rcases List.mem_append.mp hd with hd | hd
            · exact hacc d hd
            · rw [List.mem_singleton.mp hd]
              exact hc
          obtain ⟨ha, hb⟩ := ih (acc ++ [c]) sch rest hacc' h
          exact ⟨ha, fun d hd => (hb d hd).imp id (List.mem_cons_of_mem c)⟩
      · split at h
        · split at h
          · cases h
          · rw [Except.ok.injEq, Prod.mk.injEq] at h
            obtain ⟨h1, h2⟩ := h
            subst h1
            subst h2
            exact ⟨hacc, fun d hd => Or.inr (List.mem_cons_of_mem c hd)⟩
        · rw [Except.ok.injEq, Prod.mk.injEq] at h
          obtain ⟨h1, h2⟩ := h
          subst h1
          subst h2
          exact ⟨fun d hd => absurd hd (List.not_mem_nil d), fun d hd => Or.inl hd⟩

theorem getScheme_ok (raw sch rest : Str) (h : getScheme raw = Except.ok (sch, rest)) :
    (∀ c ∈ sch, isSchemeByte c = true) ∧ (∀ c ∈ rest, c ∈ raw) := by
  obtain ⟨h1, h2⟩ := getSchemeAux_chars raw raw [] sch rest (by simp) h
  exact ⟨h1, fun c hc => (h2 c hc).elim id id⟩

theorem toLower_scheme_not_mem (s : Str) (h : ∀ c ∈ s, isSchemeByte c = true) (x : Char)
    (hx : isSchemeByte x = false) (hx2 : x.toNat < 97) : x ∉ toLowerStr s := by
  intro hc
  obtain ⟨d, hd, hde⟩ := List.mem_map.mp hc
  have hds := h d hd
  unfold toLowerChar at hde
  split at hde
  · rename_i hU
    have h1 : (65 : Nat) ≤ d.toNat := of_decide_eq_true (Bool.and_elim_left hU)
    have h2 : d.toNat ≤ 90 := of_decide_eq_true (Bool.and_elim_right hU)
    have ht : (Char.ofNat (d.toNat + 32)).toNat = d.toNat + 32 :=
      char_ofNat_toNat (by omega)
    rw [hde] at ht
    omega
  · subst hde
    rw [hds] at hx
    cases hx

theorem contains_false_not_mem (l : Str) (c : Char) (h : l.contains c = false) : c ∉ l := by
  intro hc
  have hco : l.contains c = true := by
    rw [List.contains_eq_any_beq]
    refine List.any_eq_true.mpr ⟨c, hc, ?_⟩
    simp
  rw [h] at hco
  cases hco

theorem setPath_fields (u : URL) (pth : Str) (p : URL) (h : setPath u pth = Except.ok p) :
    ∃ d, unescape Encoding.path pth = Except.ok d ∧
      p = { u with Path := d, RawPath := if escape Encoding.path d = pth then [] else pth } := by
  unfold setPath at h
  cases hu : unescape Encoding.path pth with
  | error e => simp only [hu] at h; cases h
  | ok d =>
    simp only [hu, Except.ok.injEq] at h
    exact ⟨d, rfl, h.symm⟩

theorem setFragment_fields (u : URL) (f : Str) (p : URL)
    (h : setFragment u f = Except.ok p) :
    ∃ d, unescape Encoding.fragment f = Except.ok d ∧
      p = { u with Fragment := d,
                   RawFragment := if escape Encoding.fragment d = f then [] else f } := by
  unfold setFragment at h
  cases hu : unescape Encoding.fragment f with
  | error e => simp only [hu] at h; cases h
  | ok d =>
    simp only [hu, Except.ok.injEq] at h
    exact ⟨d, rfl, h.symm⟩

theorem parseURL_ok_inv (raw : Str) (via : Bool) (p : URL)
    (h : parseURL raw via = Except.ok p) :
    '?' ∉ p.Scheme ∧ '?' ∉ p.Host := by
  unfold parseURL at h
  split at h
  · cases h
  · split at h
    · cases h
    · split at h
      · rw [Except.ok.injEq] at h
        subst h
        exact ⟨fun hc => absurd hc (List.not_mem_nil _), fun hc => absurd hc (List.not_mem_nil _)⟩
      · cases hg : getScheme raw with
        | error e => simp only [hg] at h; cases h
        | ok pr =>
          obtain ⟨sch0, rest0⟩ := pr
          simp only [hg] at h
          obtain ⟨hsch, _⟩ := getScheme_ok raw sch0 rest0 hg
          have hschemeL : '?' ∉ toLowerStr sch0 :=
            toLower_scheme_not_mem sch0 hsch '?' (by decide) (by decide)
          by_cases hguard : List.getLast? rest0 = some '?' ∧
              ¬(List.dropLast rest0).contains '?' = true
          · rw [if_pos hguard] at h
            have hrq : '?' ∉ List.dropLast rest0 := by
              have h2 := hguard.2
              simp only [Bool.not_eq_true] at h2
              exact contains_false_not_mem _ _ h2
            split at h
            · rw [Except.ok.injEq] at h
              subst h
              exact ⟨hschemeL, fun hc => absurd hc (List.not_mem_nil _)⟩
            · split at h
              · cases h
              · split at h
                · cases h
                · split at h
                  · cases ha : parseAuthority
                        (splitChar ((List.dropLast rest0).drop 2) '/' false).1 with
                    | error e => simp only [ha] at h; cases h
                    | ok uh =>
                      obtain ⟨user, host⟩ := uh
                      simp only [ha] at h
                      obtain ⟨d, _, hp⟩ := setPath_fields _ _ _ h
                      subst hp
                      refine ⟨hschemeL, ?_⟩
                      show '?' ∉ host
                      refine parseAuthority_host_not_mem _ user host '?' ha ?_ (by decide)
                        (by decide) (by decide) (by decide)
                      intro hmem
                      exact hrq (List.drop_subset 2 _
                        (splitChar_fst_subset _ '/' false '?' hmem))
                  · obtain ⟨d, _, hp⟩ := setPath_fields _ _ _ h
                    subst hp
                    exact ⟨hschemeL, fun hc => absurd hc (List.not_mem_nil _)⟩
          · rw [if_neg hguard] at h
            have hrq : '?' ∉ (splitChar rest0 '?' true).1 := splitChar_fst_not_mem rest0 '?' true
            split at h
            · rw [Except.ok.injEq] at h
              subst h
              exact ⟨hschemeL, fun hc => absurd hc (List.not_mem_nil _)⟩
            · split at h
              · cases h
              · split at h
                · cases h
                · split at h
                  · cases ha : parseAuthority
                        (splitChar ((splitChar rest0 '?' true).1.drop 2) '/' false).1 with
                    | error e => simp only [ha] at h; cases h
                    | ok uh =>
                      obtain ⟨user, host⟩ := uh
                      simp only [ha] at h
                      obtain ⟨d, _, hp⟩ := setPath_fields _ _ _ h
                      subst hp
                      refine ⟨hschemeL, ?_⟩
                      show '?' ∉ host
                      refine parseAuthority_host_not_mem _ user host '?' ha ?_ (by decide)
                        (by decide) (by decide) (by decide)
                      intro hmem
                      exact hrq (List.drop_subset 2 _
                        (splitChar_fst_subset _ '/' false '?' hmem))
                  · obtain ⟨d, _, hp⟩ := setPath_fields _ _ _ h
                    subst hp
                    exact ⟨hschemeL, fun hc => absurd hc (List.not_mem_nil _)⟩

theorem mem_SanitizedURL (p : URL) (c : Char) (hc : c ∈ SanitizedURL p) :
    c ∈ p.Scheme ∨ c ∈ ([':', '/', '/'] : Str) ∨ c ∈ p.Host ∨ c ∈ p.Path := by
  unfold SanitizedURL at hc
  split at hc
  · rcases List.mem_append.mp hc with hc | hc
    · rcases List.mem_append.mp hc with hc | hc
      · rcases List.mem_append.mp hc with hc | hc
        · exact Or.inl hc
        · exact Or.inr (Or.inl hc)
      · exact Or.inr (Or.inr (Or.inl hc))
    · exact Or.inr (Or.inr (Or.inr hc))
  · rcases List.mem_append.mp hc with hc | hc
    · rcases List.mem_append.mp hc with hc | hc
      · exact Or.inl hc
      · exact Or.inr (Or.inl hc)
    · exact Or.inr (Or.inr (Or.inl hc))

theorem Parse_ok_inv (raw : Str) (p : URL) (h : Parse raw = Except.ok p) :
    '?' ∉ p.Scheme ∧ '?' ∉ p.Host := by
  unfold Parse at h
  cases hp0 : parseURL (splitChar raw '#' true).1 false with
  | error e => simp only [hp0] at h; cases h
  | ok p0 =>
    simp only [hp0] at h
    obtain ⟨hs, hh⟩ := parseURL_ok_inv _ _ _ hp0
    split at h
    · rw [Except.ok.injEq] at h
      subst h
      exact ⟨hs, hh⟩
    · obtain ⟨d, _, hp⟩ := setFragment_fields _ _ _ h
      subst hp
      exact ⟨hs, hh⟩

/-- C6 counterexample: `%3F` in the path decodes to `?` in `URL.Path`,
and the sanitizer prints the decoded path, so for the parseable URL
`http://h/a%3Fb?x=1` (whose query `x=1` is non-empty) the sanitized
output `http://h/a?b` does contain a `?` character. -/
theorem sanitizer_query_escape_counterexample :
    Parse (str "http://h/a%3Fb?x=1") =
        Except.ok { Scheme := str "http", Host := str "h", Path := str "/a?b",
                    RawQuery := str "x=1" } ∧
      SanitizedRawURL (str "http://h/a%3Fb?x=1") = str "http://h/a?b" ∧
      '?' ∈ SanitizedRawURL (str "http://h/a%3Fb?x=1") := by
  refine ⟨by rfl, by rfl, by decide⟩

/-- C6 amended: for every parseable URL the sanitizer's output is
`scheme://host` plus the decoded path, so it contains no `?` whenever
the decoded path contains none (the query and fragment themselves are
always stripped; only a `%3F` escape in the path can re-introduce `?`);
and for every string the parser rejects the sanitizer returns its input
unchanged and never fails. -/
theorem sanitizer_strips_query_amended :
    (∀ (u : Str) (p : URL), Parse u = Except.ok p → p.RawQuery ≠ [] →
        '?' ∉ p.Path → '?' ∉ SanitizedRawURL u) ∧
      (∀ (u : Str) (e : String), Parse u = Except.error e → SanitizedRawURL u = u) := by
  constructor
  · intro u p hp _ hpath hmem
    unfold SanitizedRawURL at hmem
    rw [hp] at hmem
    obtain ⟨hs, hh⟩ := Parse_ok_inv u p hp
    rcases mem_SanitizedURL p '?' hmem with hc | hc | hc | hc
    · exact hs hc
    · simp at hc
    · exact hh hc
    · exact hpath hc
  · intro u e he
    unfold SanitizedRawURL
    rw [he]

theorem sanitizer_strips_query_amended_witness :
    '?' ∉ SanitizedRawURL (str "http://h/p?tok=secret") ∧
      SanitizedRawURL (str "http://||||////localhost:8080") =
        str "http://||||////localhost:8080" :=
  ⟨sanitizer_strips_query_amended.1 (str "http://h/p?tok=secret")
      { Scheme := str "http", Host := str "h", Path := str "/p",
        RawQuery := str "tok=secret" }
      (by rfl) (by decide) (by decide),
   sanitizer_strips_query_amended.2 (str "http://||||////localhost:8080")
     "invalid character in host name" (by rfl)⟩

theorem upperhexDigit_ishex (n : Nat) : ishex (upperhexDigit n) = true := by
  unfold upperhexDigit
  by_cases h : n < 16
  · interval_cases n <;> decide
  · rw [List.getD_eq_default]
    · decide
    · simp only [not_lt] at h
      simpa using h

theorem unhex_upperhexDigit (i : Nat) (h : i < 16) : unhex (upperhexDigit i) = i := by
  interval_cases i <;> decide

theorem escape_cons (mode : Encoding) (c : Char) (s : Str) :
    escape mode (c :: s) =
      (if (decide (mode = Encoding.queryComponent) && decide (c = ' ')) = true then
        '+' :: escape mode s
       else if shouldEscape c mode = true then
        '%' :: upperhexDigit (c.toNat / 16) :: upperhexDigit (c.toNat % 16) :: escape mode s
       else c :: escape mode s) := rfl

theorem queryEscape_roundtrip (s : Str) (hb : ∀ c ∈ s, c.toNat < 256) :
    unescape Encoding.queryComponent (escape Encoding.queryComponent s) = Except.ok s := by
  induction s with
  | nil => rfl
  | cons c s ih =>
    have hc : c.toNat < 256 := hb c (List.mem_cons_self c s)
    have ihs := ih (fun d hd => hb d (List.mem_cons_of_mem c hd))
    rw [escape_cons]
    by_cases hsp : c = ' '
    · rw [if_pos (by rw [decide_eq_true rfl, decide_eq_true hsp]; rfl)]
      rw [unescape.eq_4, ihs]
      subst hsp
      rfl
    · rw [if_neg (by
        intro hcon
        exact hsp (of_decide_eq_true (Bool.and_elim_right hcon)))]
      by_cases hesc : shouldEscape c Encoding.queryComponent = true
      · rw [if_pos hesc, unescape.eq_2,
          if_pos (by rw [upperhexDigit_ishex, upperhexDigit_ishex]; rfl),
          if_neg (by simp), if_neg (by simp), ihs]
        have hdiv : c.toNat / 16 < 16 := by omega
        have hmod : c.toNat % 16 < 16 := by omega
        rw [unhex_upperhexDigit _ hdiv, unhex_upperhexDigit _ hmod]
        have hvc : c.toNat / 16 * 16 + c.toNat % 16 = c.toNat := by omega
        rw [hvc, Char.ofNat_toNat]
        rfl
      · rw [if_neg hesc]
        have hp : c = '%' → False := by
          intro he
          subst he
          exact hesc (by decide)
        have hpl : c = '+' → False := by
          intro he
          subst he
          exact hesc (by decide)
        rw [unescape.eq_5 Encoding.queryComponent c (escape Encoding.queryComponent s) hp hpl,
          if_neg (by simp), ihs]
        rfl

theorem escape_query_not_mem (s : Str) (x : Char)
    (hesc : shouldEscape x Encoding.queryComponent = true)
    (hp : x ≠ '+') (hpc : x ≠ '%') (hhex : ishex x = false) :
    x ∉ escape Encoding.queryComponent s := by
  induction s with
  | nil => simp [escape]
  | cons c s ih =>
    rw [escape_cons]
    split
    · simp only [List.mem_cons, not_or]
      exact ⟨hp, ih⟩
    · split
      · simp only [List.mem_cons, not_or]
        refine ⟨hpc, ?_, ?_, ih⟩
        · intro he
          rw [he, upperhexDigit_ishex] at hhex
          cases hhex
        · intro he
          rw [he, upperhexDigit_ishex] at hhex
          cases hhex
      · rename_i hne
        simp only [List.mem_cons, not_or]
        refine ⟨?_, ih⟩
        intro he
        subst he
        exact hne hesc

theorem cutChar_append_sep (a b : Str) (sep : Char) (h : sep ∉ a) :
    cutChar (a ++ sep :: b) sep = (a, b, true) := by
  induction a with
  | nil => simp [cutChar]
  | cons c a ih =>
    have hc : ¬(c = sep) := fun he => h (he ▸ List.mem_cons_self c a)
    rw [List.cons_append]
    show cutChar (c :: (a ++ sep :: b)) sep = (c :: a, b, true)
    unfold cutChar
    rw [if_neg hc, ih (fun hm => h (List.mem_cons_of_mem c hm))]

theorem not_mem_contains_false (l : Str) (c : Char) (h : c ∉ l) : l.contains c = false := by
  cases hc : l.contains c with
  | false => rfl
  | true =>
    exfalso
    rw [List.contains_eq_any_beq] at hc
    obtain ⟨x, hx, hbeq⟩ := List.any_eq_true.mp hc
    rw [show c = x from by simpa using hbeq] at h
    exact h hx

theorem parseQueryGo_eq (q : Str) :
    parseQueryGo q = (q.splitOn '&').foldl pqStep ([], false) := rfl

theorem encode_eq_chunks (v : Values) :
    Values.encode v = List.intercalate ['&'] (chunksOf (sortByKey v)) := rfl

theorem chunkOf_not_mem (k val : Str) (x : Char)
    (hesc : shouldEscape x Encoding.queryComponent = true) (hne : x ≠ '=')
    (hp : x ≠ '+') (hpc : x ≠ '%') (hhex : ishex x = false) : x ∉ chunkOf k val := by
  unfold chunkOf
  intro hx
  rcases List.mem_append.mp hx with hx | hx
  · exact escape_query_not_mem k x hesc hp hpc hhex hx
  · rcases List.mem_cons.mp hx with hx | hx
    · exact hne hx
    · exact escape_query_not_mem val x hesc hp hpc hhex hx

theorem chunkOf_ne_nil (k val : Str) : chunkOf k val ≠ [] := by
  unfold chunkOf
  intro h
  rcases List.append_eq_nil.mp h with ⟨_, h2⟩
  cases h2

theorem pqStep_chunk (m : Values) (e : Bool) (k val : Str)
    (hkb : ∀ c ∈ k, c.toNat < 256) (hvb : ∀ c ∈ val, c.toNat < 256) :
    pqStep (m, e) (chunkOf k val) = (valuesAdd m k val, e) := by
  unfold pqStep
  rw [if_neg (by
    rw [not_mem_contains_false _ _ (chunkOf_not_mem k val ';' (by decide) (by decide)
      (by decide) (by decide) (by decide))]
    simp)]
  rw [if_neg (chunkOf_ne_nil k val)]
  have hcut : cutChar (chunkOf k val) '=' =
      (escape Encoding.queryComponent k, escape Encoding.queryComponent val, true) :=
    cutChar_append_sep _ _ '='
      (escape_query_not_mem k '=' (by decide) (by decide) (by decide) (by decide))
  rw [hcut]
  simp only [queryEscape_roundtrip k hkb, queryEscape_roundtrip val hvb]

theorem valuesAdd_fresh (m : Values) (k : Str) (v : Str) (h : ∀ q ∈ m, q.1 ≠ k) :
    valuesAdd m k v = m ++ [(k, [v])] := by
  induction m with
  | nil => rfl
  | cons p m ih =>
    unfold valuesAdd
    rw [if_neg (h p (List.mem_cons_self p m))]
    rw [ih (fun q hq => h q (List.mem_cons_of_mem p hq))]
    rfl

theorem valuesAdd_last (m : Values) (k : Str) (acc : List Str) (v : Str)
    (h : ∀ q ∈ m, q.1 ≠ k) :
    valuesAdd (m ++ [(k, acc)]) k v = m ++ [(k, acc ++ [v])] := by
  induction m with
  | nil => simp [valuesAdd]
  | cons p m ih =>
    rw [List.cons_append]
    unfold valuesAdd
    rw [if_neg (h p (List.mem_cons_self p m))]
    rw [ih (fun q hq => h q (List.mem_cons_of_mem p hq))]
    rfl

theorem fold_chunks_key_aux (k : Str) (vs : List Str) (acc : List Str) (m : Values) (e : Bool)
    (hm : ∀ q ∈ m, q.1 ≠ k) (hkb : ∀ c ∈ k, c.toNat < 256)
    (hvb : ∀ v ∈ vs, ∀ c ∈ v, c.toNat < 256) :
    List.foldl pqStep (m ++ [(k, acc)], e) (vs.map (fun val => chunkOf k val)) =
      (m ++ [(k, acc ++ vs)], e) := by
  induction vs generalizing acc with
  | nil => simp
  | cons v vs ih =>
    rw [List.map_cons, List.foldl_cons,
      pqStep_chunk _ _ _ _ hkb (hvb v (List.mem_cons_self v vs)),
      valuesAdd_last m k acc v hm,
      ih (acc ++ [v]) (fun w hw => hvb w (List.mem_cons_of_mem v hw))]
    simp

theorem fold_chunks_key (k : Str) (vs : List Str) (m : Values) (e : Bool)
    (hne : vs ≠ []) (hm : ∀ q ∈ m, q.1 ≠ k) (hkb : ∀ c ∈ k, c.toNat < 256)
    (hvb : ∀ v ∈ vs, ∀ c ∈ v, c.toNat < 256) :
    List.foldl pqStep (m, e) (vs.map (fun val => chunkOf k val)) = (m ++ [(k, vs)], e) := by
  cases vs with
  | nil => exact absurd rfl hne
  | cons v vs =>
    rw [List.map_cons, List.foldl_cons,
      pqStep_chunk _ _ _ _ hkb (hvb v (List.mem_cons_self v vs)),
      valuesAdd_fresh m k v hm,
      fold_chunks_key_aux k vs [v] m e hm hkb (fun w hw => hvb w (List.mem_cons_of_mem v hw))]
    simp

theorem chunksOf_cons (p : Str × List Str) (w : Values) :
    chunksOf (p :: w) = p.2.map (fun val => chunkOf p.1 val) ++ chunksOf w := rfl

theorem fold_chunksOf (w : Values) (m : Values) (e : Bool)
    (hdisj : ∀ p ∈ w, ∀ q ∈ m, q.1 ≠ p.1)
    (huniq : w.Pairwise (fun p q => p.1 ≠ q.1))
    (hvals : ∀ p ∈ w, p.2 ≠ [])
    (hbytes : ∀ p ∈ w, (∀ c ∈ p.1, c.toNat < 256) ∧ ∀ v ∈ p.2, ∀ c ∈ v, c.toNat < 256) :
    List.foldl pqStep (m, e) (chunksOf w) = (m ++ w, e) := by
  induction w generalizing m with
  | nil => simp [chunksOf]
  | cons p w ih =>
    obtain ⟨k, vs⟩ := p
    rw [chunksOf_cons, List.foldl_append]
    rw [fold_chunks_key k vs m e (hvals _ (List.mem_cons_self _ _))
      (fun q hq => hdisj _ (List.mem_cons_self _ _) q hq)
      (hbytes _ (List.mem_cons_self _ _)).1
      (hbytes _ (List.mem_cons_self _ _)).2]
    have hd' : ∀ p ∈ w, ∀ q ∈ m ++ [(k, vs)], q.1 ≠ p.1 := by
      intro p hp q hq
      rcases List.mem_append.mp hq with hq | hq
      · exact hdisj p (List.mem_cons_of_mem _ hp) q hq
      · rw [List.mem_singleton.mp hq]
        exact (List.pairwise_cons.mp huniq).1 p hp
    rw [ih (m ++ [(k, vs)]) hd' (List.Pairwise.of_cons huniq)
      (fun p hp => hvals p (List.mem_cons_of_mem _ hp))
      (fun p hp => hbytes p (List.mem_cons_of_mem _ hp))]
    simp

theorem insertSortedByKey_perm (p : Str × List Str) (l : Values) :
    List.Perm (insertSortedByKey p l) (p :: l) := by
  induction l with
  | nil => exact List.Perm.refl _
  | cons q l ih =>
    unfold insertSortedByKey
    split
    · exact List.Perm.refl _
    · exact ((ih.cons q).trans (List.Perm.swap p q l))

theorem sortByKey_perm (v : Values) : List.Perm (sortByKey v) v := by
  induction v with
  | nil => exact List.Perm.refl _
  | cons p v ih =>
    show List.Perm (insertSortedByKey p (sortByKey v)) (p :: v)
    exact (insertSortedByKey_perm p (sortByKey v)).trans (ih.cons p)

theorem mem_chunksOf (w : Values) (chunk : Str) (h : chunk ∈ chunksOf w) :
    ∃ p ∈ w, ∃ val ∈ p.2, chunk = chunkOf p.1 val := by
  induction w with
  | nil => cases h
  | cons p w ih =>
    rw [chunksOf_cons] at h
    rcases List.mem_append.mp h with h | h
    · obtain ⟨val, hval, hev⟩ := List.mem_map.mp h
      exact ⟨p, List.mem_cons_self p w, val, hval, hev.symm⟩
    · obtain ⟨q, hq, val, hval, he⟩ := ih h
      exact ⟨q, List.mem_cons_of_mem p hq, val, hval, he⟩

theorem query_encode_roundtrip (v : Values)
    (huniq : v.Pairwise (fun p q => p.1 ≠ q.1))
    (hvals : ∀ p ∈ v, p.2 ≠ [])
    (hbytes : ∀ p ∈ v, (∀ c ∈ p.1, c.toNat < 256) ∧ ∀ val ∈ p.2, ∀ c ∈ val, c.toNat < 256) :
    parseQueryGo (Values.encode v) = (sortByKey v, false) := by
  have hperm := sortByKey_perm v
  have huniq' : (sortByKey v).Pairwise (fun p q => p.1 ≠ q.1) :=
    (hperm.pairwise_iff (fun hab => Ne.symm hab)).mpr huniq
  have hvals' : ∀ p ∈ sortByKey v, p.2 ≠ [] := fun p hp => hvals p (hperm.mem_iff.mp hp)
  have hbytes' : ∀ p ∈ sortByKey v,
      (∀ c ∈ p.1, c.toNat < 256) ∧ ∀ val ∈ p.2, ∀ c ∈ val, c.toNat < 256 :=
    fun p hp => hbytes p (hperm.mem_iff.mp hp)
  rw [parseQueryGo_eq, encode_eq_chunks]
  by_cases hnil : chunksOf (sortByKey v) = []
  · have hw : sortByKey v = [] := by
      cases hs : sortByKey v with
      | nil => rfl
      | cons p w =>
        exfalso
        rw [hs, chunksOf_cons] at hnil
        rcases List.append_eq_nil.mp hnil with ⟨h1, _⟩
        have hpvals := hvals' p (hs ▸ List.mem_cons_self p w)
        cases hpv : p.2 with
        | nil => exact hpvals hpv
        | cons a l =>
          rw [hpv] at h1
          cases h1
    rw [hnil, hw]
    rfl
  · rw [List.splitOn_intercalate (chunksOf (sortByKey v)) '&' ?hamp hnil]
    · have := fold_chunksOf (sortByKey v) [] false
        (fun p _ q hq => absurd hq (List.not_mem_nil q)) huniq' hvals' hbytes'
      rw [this]
      rfl
    · intro l hl
      obtain ⟨p, _, val, _, he⟩ := mem_chunksOf _ l hl
      rw [he]
      exact chunkOf_not_mem p.1 val '&' (by decide) (by decide) (by decide) (by decide)
        (by decide)

theorem unescape_byteRange (mode : Encoding) (s t : Str)
    (h : unescape mode s = Except.ok t) (hb : ∀ c ∈ s, c.toNat < 256) :
    ∀ c ∈ t, c.toNat < 256 := by
  induction s using unescape.induct mode generalizing t with
  | case1 =>
    simp only [unescape, Except.ok.injEq] at h
    subst h
    intro c hc
    cases hc
  | case2 c1 c2 rest2 hhex hrej =>
    simp only [unescape, hhex, hrej] at h
    simp at h
  | case3 c1 c2 rest2 hhex hrej1 hrej2 =>
    simp only [Bool.not_eq_true] at hrej1
    simp only [unescape, hhex, hrej1, hrej2] at h
    simp at h
  | case4 c1 c2 rest2 hhex hrej1 hrej2 ih =>
    simp only [Bool.not_eq_true] at hrej1 hrej2
    simp only [unescape, hhex, hrej1, hrej2, Bool.false_eq_true, if_false, if_true] at h
    cases hu : unescape mode rest2 with
    | error e => rw [hu] at h; simp [Except.map] at h
    | ok t' =>
      rw [hu] at h
      simp only [Except.map, Except.ok.injEq] at h
      subst h
      intro c hc
      rcases List.mem_cons.mp hc with hc | hc
      · subst hc
        have h1 := unhex_lt c1
        have h2 := unhex_lt c2
        rw [char_ofNat_toNat (by omega)]
        omega
      · exact ih t' hu (fun d hd => hb d (List.mem_cons_of_mem _
          (List.mem_cons_of_mem _ (List.mem_cons_of_mem _ hd)))) c hc
  | case5 c1 c2 rest2 hhex =>
    simp only [Bool.not_eq_true] at hhex
    simp only [unescape, hhex] at h
    simp at h
  | case6 rest hshort =>
    cases rest with
    | nil => simp [unescape] at h
    | cons c1 rest' =>
      cases rest' with
      | nil => simp [unescape] at h
      | cons c2 rest2 => exact absurd rfl (fun he => hshort c1 c2 rest2 he)
  | case7 rest ih =>
    rw [unescape.eq_4] at h
    cases hu : unescape mode rest with
    | error e => rw [hu] at h; simp [Except.map] at h
    | ok t' =>
      rw [hu] at h
      simp only [Except.map, Except.ok.injEq] at h
      subst h
      intro c hc
      rcases List.mem_cons.mp hc with hc | hc
      · subst hc
        split <;> decide
      · exact ih t' hu (fun d hd => hb d (List.mem_cons_of_mem _ hd)) c hc
  | case8 c rest hpp hpl hrej =>
    rw [unescape.eq_5 mode c rest hpp hpl, if_pos hrej] at h
    cases h
  | case9 c rest hpp hpl hrej ih =>
    rw [unescape.eq_5 mode c rest hpp hpl, if_neg hrej] at h
    cases hu : unescape mode rest with
    | error e => rw [hu] at h; simp [Except.map] at h
    | ok t' =>
      rw [hu] at h
      simp only [Except.map, Except.ok.injEq] at h
      subst h
      intro d hd
      rcases List.mem_cons.mp hd with hd | hd
      · subst hd
        exact hb d (List.mem_cons_self d rest)
      · exact ih t' hu (fun x hx => hb x (List.mem_cons_of_mem _ hx)) d hd

theorem mem_intercalate (sep : Char) (ls : List Str) (l : Str) (c : Char)
    (hl : l ∈ ls) (hc : c ∈ l) : c ∈ List.intercalate [sep] ls := by
  induction ls with
  | nil => cases hl
  | cons x ls ih =>
    cases ls with
    | nil =>
      rw [List.mem_singleton.mp hl] at hc
      simpa [List.intercalate] using hc
    | cons y ls' =>
      rw [show List.intercalate [sep] (x :: y :: ls') =
          x ++ [sep] ++ List.intercalate [sep] (y :: ls') from by
        simp [List.intercalate, List.intersperse]]
      rcases List.mem_cons.mp hl with hl | hl
      · subst hl
        exact List.mem_append_left _ (List.mem_append_left _ hc)
      · exact List.mem_append_right _ (ih hl)

theorem mem_of_mem_splitOn (q chunk : Str) (c : Char)
    (hchunk : chunk ∈ q.splitOn '&') (hc : c ∈ chunk) : c ∈ q := by
  have := mem_intercalate '&' (q.splitOn '&') chunk c hchunk hc
  rwa [List.intercalate_splitOn] at this

theorem valuesAdd_mem (m : Values) (k v : Str) (q : Str × List Str)
    (h : q ∈ valuesAdd m k v) :
    (q.1 = k ∧ (q.2 = [v] ∨ ∃ p ∈ m, p.1 = k ∧ q.2 = p.2 ++ [v])) ∨ q ∈ m := by
  induction m with
  | nil =>
    rw [List.mem_singleton.mp h]
    exact Or.inl ⟨rfl, Or.inl rfl⟩
  | cons p m ih =>
    unfold valuesAdd at h
    split at h
    · rename_i hk
      rcases List.mem_cons.mp h with h | h
      · subst h
        exact Or.inl ⟨hk, Or.inr ⟨p, List.mem_cons_self p m, hk, rfl⟩⟩
      · exact Or.inr (List.mem_cons_of_mem p h)
    · rcases List.mem_cons.mp h with h | h
      · subst h
        exact Or.inr (List.mem_cons_self _ m)
      · rcases ih h with ⟨h1, h2 | ⟨p', hp', h3⟩⟩ | h'
        · exact Or.inl ⟨h1, Or.inl h2⟩
        · exact Or.inl ⟨h1, Or.inr ⟨p', List.mem_cons_of_mem p hp', h3⟩⟩
        · exact Or.inr (List.mem_cons_of_mem p h')

theorem valuesAdd_pairwise (m : Values) (k v : Str)
    (huniq : m.Pairwise (fun p q => p.1 ≠ q.1)) :
    (valuesAdd m k v).Pairwise (fun p q => p.1 ≠ q.1) := by
  induction m with
  | nil => simp [valuesAdd]
  | cons p m ih =>
    obtain ⟨k', vs⟩ := p
    rcases List.pairwise_cons.mp huniq with ⟨hhead, htail⟩
    unfold valuesAdd
    split
    · exact List.pairwise_cons.mpr ⟨hhead, htail⟩
    · rename_i hk
      refine List.pairwise_cons.mpr ⟨?_, ih htail⟩
      intro q hq
      rcases valuesAdd_mem m k v q hq with ⟨h1, _⟩ | h'
      · rw [h1]
        exact hk
      · exact hhead q h'

theorem pqFold_inv (chunks : List Str) (hcb : ∀ l ∈ chunks, ∀ c ∈ l, c.toNat < 256) :
    ∀ (m : Values) (e : Bool),
      m.Pairwise (fun p q => p.1 ≠ q.1) → (∀ p ∈ m, p.2 ≠ []) →
      (∀ p ∈ m, (∀ c ∈ p.1, c.toNat < 256) ∧ ∀ val ∈ p.2, ∀ c ∈ val, c.toNat < 256) →
      ((chunks.foldl pqStep (m, e)).1.Pairwise (fun p q => p.1 ≠ q.1) ∧
        (∀ p ∈ (chunks.foldl pqStep (m, e)).1, p.2 ≠ []) ∧
        (∀ p ∈ (chunks.foldl pqStep (m, e)).1,
          (∀ c ∈ p.1, c.toNat < 256) ∧ ∀ val ∈ p.2, ∀ c ∈ val, c.toNat < 256)) := by
  induction chunks with
  | nil => exact fun m e h1 h2 h3 => ⟨h1, h2, h3⟩
  | cons chunk chunks ih =>
    intro m e h1 h2 h3
    have hcc : ∀ c ∈ chunk, c.toNat < 256 := hcb chunk (List.mem_cons_self _ _)
    have hstep : ∃ m' e', pqStep (m, e) chunk = (m', e') ∧
        m'.Pairwise (fun p q => p.1 ≠ q.1) ∧ (∀ p ∈ m', p.2 ≠ []) ∧
        (∀ p ∈ m', (∀ c ∈ p.1, c.toNat < 256) ∧ ∀ val ∈ p.2, ∀ c ∈ val, c.toNat < 256) := by
      unfold pqStep
      split
      · exact ⟨m, true, rfl, h1, h2, h3⟩
      · split
        · exact ⟨m, e, rfl, h1, h2, h3⟩
        · cases hu1 : unescape Encoding.queryComponent (cutChar chunk '=').1 with
          | error er => exact ⟨m, true, by simp only [hu1], h1, h2, h3⟩
          | ok k =>
            cases hu2 : unescape Encoding.queryComponent (cutChar chunk '=').2.1 with
            | error er => exact ⟨m, true, by simp only [hu1, hu2], h1, h2, h3⟩
            | ok v =>
              have hkb : ∀ c ∈ k, c.toNat < 256 :=
                unescape_byteRange _ _ _ hu1
                  (fun c hc => hcc c (cutChar_before_subset chunk '=' c hc))
              have hvb : ∀ c ∈ v, c.toNat < 256 :=
                unescape_byteRange _ _ _ hu2
                  (fun c hc => hcc c (cutChar_after_subset chunk '=' c hc))
              refine ⟨valuesAdd m k v, e, by simp only [hu1, hu2],
                valuesAdd_pairwise m k v h1, ?_, ?_⟩
              · intro p hp
                rcases valuesAdd_mem m k v p hp with ⟨_, hv1 | ⟨p', _, _, hv2⟩⟩ | hm
                · rw [hv1]
                  simp
                · rw [hv2]
                  simp
                · exact h2 p hm
              · intro p hp
                rcases valuesAdd_mem m k v p hp with ⟨hk1, hv1 | ⟨p', hp', _, hv2⟩⟩ | hm
                · rw [hk1, hv1]
                  refine ⟨hkb, ?_⟩
                  intro val hval
                  rw [List.mem_singleton.mp hval]
                  exact hvb
                · rw [hk1, hv2]
                  refine ⟨hkb, ?_⟩
                  intro val hval
                  rcases List.mem_append.mp hval with hval | hval
                  · exact (h3 p' hp').2 val hval
                  · rw [List.mem_singleton.mp hval]
                    exact hvb
                · exact h3 p hm
    obtain ⟨m', e', heq, i1, i2, i3⟩ := hstep
    rw [List.foldl_cons, heq]
    exact ih (fun l hl => hcb l (List.mem_cons_of_mem _ hl)) m' e' i1 i2 i3

theorem parseQueryGo_inv (q : Str) (hq : ∀ c ∈ q, c.toNat < 256) :
    (parseQueryGo q).1.Pairwise (fun p p' => p.1 ≠ p'.1) ∧
      (∀ p ∈ (parseQueryGo q).1, p.2 ≠ []) ∧
      (∀ p ∈ (parseQueryGo q).1,
        (∀ c ∈ p.1, c.toNat < 256) ∧ ∀ val ∈ p.2, ∀ c ∈ val, c.toNat < 256) := by
  rw [parseQueryGo_eq]
  exact pqFold_inv (q.splitOn '&')
    (fun l hl c hc => hq c (mem_of_mem_splitOn q l c hl hc)) [] false
    (List.Pairwise.nil) (fun p hp => absurd hp (List.not_mem_nil p))
    (fun p hp => absurd hp (List.not_mem_nil p))

theorem parseURL_rawQuery_subset (raw : Str) (via : Bool) (p : URL)
    (h : parseURL raw via = Except.ok p) : ∀ c ∈ p.RawQuery, c ∈ raw := by
  unfold parseURL at h
  split at h
  · cases h
  · split at h
    · cases h
    · split at h
      · rw [Except.ok.injEq] at h
        subst h
        intro c hc
        cases hc
      · cases hg : getScheme raw with
        | error e => simp only [hg] at h; cases h
        | ok pr =>
          obtain ⟨sch0, rest0⟩ := pr
          simp only [hg] at h
          obtain ⟨_, hrest0⟩ := getScheme_ok raw sch0 rest0 hg
          by_cases hguard : List.getLast? rest0 = some '?' ∧
              ¬(List.dropLast rest0).contains '?' = true
          · rw [if_pos hguard] at h
            have hsub : ∀ c ∈ ([] : Str), c ∈ raw := fun c hc => absurd hc (List.not_mem_nil c)
            split at h
            · rw [Except.ok.injEq] at h
              subst h
              exact hsub
            · split at h
              · cases h
              · split at h
                · cases h
                · split at h
                  · cases ha : parseAuthority
                        (splitChar ((List.dropLast rest0).drop 2) '/' false).1 with
                    | error e => simp only [ha] at h; cases h
                    | ok uh =>
                      obtain ⟨user, host⟩ := uh
                      simp only [ha] at h
                      obtain ⟨d, _, hp⟩ := setPath_fields _ _ _ h
                      subst hp
                      exact hsub
                  · obtain ⟨d, _, hp⟩ := setPath_fields _ _ _ h
                    subst hp
                    exact hsub
          · rw [if_neg hguard] at h
            have hsub : ∀ c ∈ (splitChar rest0 '?' true).2, c ∈ raw :=
              fun c hc => hrest0 c (splitChar_snd_subset_true rest0 '?' c hc)
            split at h
            · rw [Except.ok.injEq] at h
              subst h
              exact hsub
            · split at h
              · cases h
              · split at h
                · cases h
                · split at h
                  · cases ha : parseAuthority
                        (splitChar ((splitChar rest0 '?' true).1.drop 2) '/' false).1 with
                    | error e => simp only [ha] at h; cases h
                    | ok uh =>
                      obtain ⟨user, host⟩ := uh
                      simp only [ha] at h
                      obtain ⟨d, _, hp⟩ := setPath_fields _ _ _ h
                      subst hp
                      exact hsub
                  · obtain ⟨d, _, hp⟩ := setPath_fields _ _ _ h
                    subst hp
                    exact hsub

theorem Parse_rawQuery_subset (raw : Str) (p : URL) (h : Parse raw = Except.ok p) :
    ∀ c ∈ p.RawQuery, c ∈ raw := by
  unfold Parse at h
  cases hp0 : parseURL (splitChar raw '#' true).1 false with
  | error e => simp only [hp0] at h; cases h
  | ok p0 =>
    simp only [hp0] at h
    have hsub := parseURL_rawQuery_subset _ _ _ hp0
    have hsub2 : ∀ c ∈ p0.RawQuery, c ∈ raw :=
      fun c hc => splitChar_fst_subset raw '#' true c (hsub c hc)
    split at h
    · rw [Except.ok.injEq] at h
      subst h
      exact hsub2
    · obtain ⟨d, _, hp⟩ := setFragment_fields _ _ _ h
      subst hp
      exact hsub2

/-- C9: composing a parseable base URL (over bytes) that already carries
query parameters with no extra paths and no extra query returns the URL
re-serialized with the same path and a canonically re-encoded query
whose key/value association list is a permutation of the base's parsed
query (sorted by key); no parameter is added, dropped, or changed. -/
theorem generateURL_identity_composition (base : Str) (b : URL)
    (hbytes : ∀ c ∈ base, c.toNat < 256)
    (hp : Parse base = Except.ok b) (_hne : URL.Query b ≠ []) :
    generateURL base [] [] =
        GoResult.ok (URL.toString { b with RawQuery := Values.encode (URL.Query b) }) ∧
      ({ b with RawQuery := Values.encode (URL.Query b) } : URL).Path = b.Path ∧
      List.Perm (URL.Query { b with RawQuery := Values.encode (URL.Query b) })
        (URL.Query b) := by
  refine ⟨?_, rfl, ?_⟩
  · unfold generateURL
    rw [hp]
    rfl
  · show List.Perm (parseQueryGo (Values.encode (URL.Query b))).1 (URL.Query b)
    have hqb : ∀ c ∈ b.RawQuery, c.toNat < 256 :=
      fun c hc => hbytes c (Parse_rawQuery_subset base b hp c hc)
    obtain ⟨i1, i2, i3⟩ := parseQueryGo_inv b.RawQuery hqb
    rw [query_encode_roundtrip (URL.Query b) i1 i2 i3]
    exact sortByKey_perm _

theorem generateURL_identity_composition_witness :
    generateURL (str "http://h/p?b=2&a=1") [] [] =
        GoResult.ok (URL.toString { c9Base with RawQuery := Values.encode (URL.Query c9Base) }) ∧
      URL.toString { c9Base with RawQuery := Values.encode (URL.Query c9Base) } =
        str "http://h/p?a=1&b=2" ∧
      List.Perm (URL.Query { c9Base with RawQuery := Values.encode (URL.Query c9Base) })
        (URL.Query c9Base) :=
  ⟨(generateURL_identity_composition (str "http://h/p?b=2&a=1") c9Base
      (by decide) (by rfl) (by decide)).1,
   by decide,
   (generateURL_identity_composition (str "http://h/p?b=2&a=1") c9Base
      (by decide) (by rfl) (by decide)).2.2⟩

theorem toLowerChar_idem (c : Char) : toLowerChar (toLowerChar c) = toLowerChar c := by
  by_cases hU : isUpperAZ c = true
  · have h1 : (65 : Nat) ≤ c.toNat := of_decide_eq_true (Bool.and_elim_left hU)
    have h2 : c.toNat ≤ 90 := of_decide_eq_true (Bool.and_elim_right hU)
    have ht : (Char.ofNat (c.toNat + 32)).toNat = c.toNat + 32 := char_ofNat_toNat (by omega)
    have hlc : toLowerChar c = Char.ofNat (c.toNat + 32) := by
      unfold toLowerChar
      rw [if_pos hU]
    rw [hlc]
    have hnu : ¬ isUpperAZ (Char.ofNat (c.toNat + 32)) = true := by
      intro hu
      have h3 : (65 : Nat) ≤ (Char.ofNat (c.toNat + 32)).toNat :=
        of_decide_eq_true (Bool.and_elim_left hu)
      have h4 : (Char.ofNat (c.toNat + 32)).toNat ≤ 90 :=
        of_decide_eq_true (Bool.and_elim_right hu)
      omega
    unfold toLowerChar
    rw [if_neg hnu]
  · have hlc : toLowerChar c = c := by
      unfold toLowerChar
      rw [if_neg hU]
    rw [hlc, hlc]

theorem toLowerStr_idem (s : Str) : toLowerStr (toLowerStr s) = toLowerStr s := by
  unfold toLowerStr
  rw [List.map_map]
  exact List.map_congr_left (fun c _ => toLowerChar_idem c)

theorem toLowerChar_letter (c : Char) (h : isUpperAZ c = true ∨ isLowerAZ c = true) :
    isLowerAZ (toLowerChar c) = true := by
  unfold toLowerChar
  rcases h with h | h
  · have h1 : (65 : Nat) ≤ c.toNat := of_decide_eq_true (Bool.and_elim_left h)
    have h2 : c.toNat ≤ 90 := of_decide_eq_true (Bool.and_elim_right h)
    rw [if_pos h]
    have ht : (Char.ofNat (c.toNat + 32)).toNat = c.toNat + 32 := char_ofNat_toNat (by omega)
    have e1 : 'a' ≤ Char.ofNat (c.toNat + 32) := by
      show (97 : Nat) ≤ (Char.ofNat (c.toNat + 32)).toNat
      omega
    have e2 : Char.ofNat (c.toNat + 32) ≤ 'z' := by
      show (Char.ofNat (c.toNat + 32)).toNat ≤ (122 : Nat)
      omega
    unfold isLowerAZ
    rw [decide_eq_true e1, decide_eq_true e2]
    rfl
  · split
    · rename_i hU
      have h1 : (65 : Nat) ≤ c.toNat := of_decide_eq_true (Bool.and_elim_left hU)
      have h2 : c.toNat ≤ 90 := of_decide_eq_true (Bool.and_elim_right hU)
      have h3 : (97 : Nat) ≤ c.toNat := of_decide_eq_true (Bool.and_elim_left h)
      omega
    · exact h

theorem toLowerChar_schemeByte (c : Char) (h : isSchemeByte c = true) :
    isSchemeByte (toLowerChar c) = true := by
  unfold toLowerChar
  split
  · rename_i hU
    have hl := toLowerChar_letter c (Or.inl hU)
    unfold toLowerChar at hl
    rw [if_pos hU] at hl
    simp only [isSchemeByte, Bool.or_eq_true]
    exact Or.inl (Or.inl (Or.inl (Or.inl (Or.inr hl))))
  · exact h

theorem unescape_host_prov (mode : Encoding) (hm : mode = Encoding.host) (s t : Str)
    (h : unescape mode s = Except.ok t) :
    ∀ c ∈ t, c ∈ s ∨ c = '%' ∨ 0x80 ≤ c.toNat := by
  induction s using unescape.induct mode generalizing t with
  | case1 =>
    simp only [unescape, Except.ok.injEq] at h
    subst h
    intro c hc
    cases hc
  | case2 c1 c2 rest2 hhex hrej =>
    simp only [unescape, hhex, hrej] at h
    simp at h
  | case3 c1 c2 rest2 hhex hrej1 hrej2 =>
    simp only [Bool.not_eq_true] at hrej1
    simp only [unescape, hhex, hrej1, hrej2] at h
    simp at h
  | case4 c1 c2 rest2 hhex hrej1 hrej2 ih =>
    simp only [Bool.not_eq_true] at hrej1 hrej2
    simp only [unescape, hhex, hrej1, hrej2, Bool.false_eq_true, if_false, if_true] at h
    cases hu : unescape mode rest2 with
    | error e => rw [hu] at h; simp [Except.map] at h
    | ok t' =>
      rw [hu] at h
      simp only [Except.map, Except.ok.injEq] at h
      subst h
      intro c hc
      rcases List.mem_cons.mp hc with hc | hc
      · subst hc
        subst hm
        simp only [decide_eq_true_eq, Bool.and_eq_false_iff, decide_eq_false_iff_not,
          not_not, not_lt] at hrej1
        rcases hrej1 with (h8 | h8) | h8
        · simp at h8
        · right; right
          have hv : unhex c1 * 16 + unhex c2 < 0xd800 := by
            have := unhex_lt c1
            have := unhex_lt c2
            omega
          rw [char_ofNat_toNat hv]
          have := unhex_lt c2
          omega
        · obtain ⟨h25a, h25b⟩ := h8
          subst h25a
          subst h25b
          right; left
          decide
      · rcases ih t' hu c hc with hin | hrest
        · exact Or.inl (List.mem_cons_of_mem _ (List.mem_cons_of_mem _
            (List.mem_cons_of_mem _ hin)))
        · exact Or.inr hrest
  | case5 c1 c2 rest2 hhex =>
    simp only [Bool.not_eq_true] at hhex
    simp only [unescape, hhex] at h
    simp at h
  | case6 rest hshort =>
    cases rest with
    | nil => simp [unescape] at h
    | cons c1 rest' =>
      cases rest' with
      | nil => simp [unescape] at h
      | cons c2 rest2 => exact absurd rfl (fun he => hshort c1 c2 rest2 he)
  | case7 rest ih =>
    rw [unescape.eq_4] at h
    have hplus : (if mode = Encoding.queryComponent then ' ' else '+') = '+' := by
      subst hm
      rfl
    rw [hplus] at h
    cases hu : unescape mode rest with
    | error e => rw [hu] at h; simp [Except.map] at h
    | ok t' =>
      rw [hu] at h
      simp only [Except.map, Except.ok.injEq] at h
      subst h
      intro c hc
      rcases List.mem_cons.mp hc with hc | hc
      · subst hc
        exact Or.inl (List.mem_cons_self _ _)
      · rcases ih t' hu c hc with hin | hrest
        · exact Or.inl (List.mem_cons_of_mem _ hin)
        · exact Or.inr hrest
  | case8 c rest hp hpl hrej =>
    rw [unescape.eq_5 mode c rest hp hpl, if_pos hrej] at h
    cases h
  | case9 c rest hp hpl hrej ih =>
    rw [unescape.eq_5 mode c rest hp hpl, if_neg hrej] at h
    cases hu : unescape mode rest with
    | error e => rw [hu] at h; simp [Except.map] at h
    | ok t' =>
      rw [hu] at h
      simp only [Except.map, Except.ok.injEq] at h
      subst h
      intro d hd
      rcases List.mem_cons.mp hd with hd | hd
      · subst hd
        exact Or.inl (List.mem_cons_self _ _)
      · rcases ih t' hu d hd with hin | hrest
        · exact Or.inl (List.mem_cons_of_mem _ hin)
        · exact Or.inr hrest

theorem unescape_host_out (mode : Encoding) (hm : mode = Encoding.host) (s t : Str)
    (h : unescape mode s = Except.ok t) :
    ∀ c ∈ t, c = '%' ∨ 0x80 ≤ c.toNat ∨ shouldEscape c Encoding.host = false := by
  induction s using unescape.induct mode generalizing t with
  | case1 =>
    simp only [unescape, Except.ok.injEq] at h
    subst h
    intro c hc
    cases hc
  | case2 c1 c2 rest2 hhex hrej =>
    simp only [unescape, hhex, hrej] at h
    simp at h
  | case3 c1 c2 rest2 hhex hrej1 hrej2 =>
    simp only [Bool.not_eq_true] at hrej1
    simp only [unescape, hhex, hrej1, hrej2] at h
    simp at h
  | case4 c1 c2 rest2 hhex hrej1 hrej2 ih =>
    simp only [Bool.not_eq_true] at hrej1 hrej2
    simp only [unescape, hhex, hrej1, hrej2, Bool.false_eq_true, if_false, if_true] at h
    cases hu : unescape mode rest2 with
    | error e => rw [hu] at h; simp [Except.map] at h
    | ok t' =>
      rw [hu] at h
      simp only [Except.map, Except.ok.injEq] at h
      subst h
      intro c hc
      rcases List.mem_cons.mp hc with hc | hc
      · subst hc
        subst hm
        simp only [decide_eq_true_eq, Bool.and_eq_false_iff, decide_eq_false_iff_not,
          not_not, not_lt] at hrej1
        rcases hrej1 with (h8 | h8) | h8
        · simp at h8
        · right; left
          have hv : unhex c1 * 16 + unhex c2 < 0xd800 := by
            have := unhex_lt c1
            have := unhex_lt c2
            omega
          rw [char_ofNat_toNat hv]
          have := unhex_lt c2
          omega
        · obtain ⟨h25a, h25b⟩ := h8
          subst h25a
          subst h25b
          left
          decide
      · exact ih t' hu c hc
  | case5 c1 c2 rest2 hhex =>
    simp only [Bool.not_eq_true] at hhex
    simp only [unescape, hhex] at h
    simp at h
  | case6 rest hshort =>
    cases rest with
    | nil => simp [unescape] at h
    | cons c1 rest' =>
      cases rest' with
      | nil => simp [unescape] at h
      | cons c2 rest2 => exact absurd rfl (fun he => hshort c1 c2 rest2 he)
  | case7 rest ih =>
    rw [unescape.eq_4] at h
    have hplus : (if mode = Encoding.queryComponent then ' ' else '+') = '+' := by
      subst hm
      rfl
    rw [hplus] at h
    cases hu : unescape mode rest with
    | error e => rw [hu] at h; simp [Except.map] at h
    | ok t' =>
      rw [hu] at h
      simp only [Except.map, Except.ok.injEq] at h
      subst h
      intro c hc
      rcases List.mem_cons.mp hc with hc | hc
      · subst hc
        right; right
        decide
      · exact ih t' hu c hc
  | case8 c rest hp hpl hrej =>
    rw [unescape.eq_5 mode c rest hp hpl, if_pos hrej] at h
    cases h
  | case9 c rest hp hpl hrej ih =>
    rw [unescape.eq_5 mode c rest hp hpl, if_neg hrej] at h
    cases hu : unescape mode rest with
    | error e => rw [hu] at h; simp [Except.map] at h
    | ok t' =>
      rw [hu] at h
      simp only [Except.map, Except.ok.injEq] at h
      subst h
      intro d hd
      rcases List.mem_cons.mp hd with hd | hd
      · subst hd
        subst hm
        by_cases h80 : 0x80 ≤ d.toNat
        · exact Or.inr (Or.inl h80)
        · right; right
          by_cases hse : shouldEscape d Encoding.host = true
          · exfalso
            apply hrej
            rw [hse, decide_eq_true (show d.toNat < 128 from by omega)]
            rfl
          · exact Bool.not_eq_true _ ▸ hse
      · exact ih t' hu d hd

theorem unescape_cons_raw (mode : Encoding) (c : Char) (rest t : Str)
    (h : unescape mode (c :: rest) = Except.ok t) (hc1 : ¬c = '%') (hc2 : ¬c = '+') :
    ∃ t', t = c :: t' ∧ unescape mode rest = Except.ok t' := by
  rw [unescape.eq_5 mode c rest hc1 hc2] at h
  split at h
  · cases h
  · cases hu : unescape mode rest with
    | error e => rw [hu] at h; simp [Except.map] at h
    | ok t' =>
      rw [hu] at h
      simp only [Except.map, Except.ok.injEq] at h
      subst h
      exact ⟨t', rfl, rfl⟩

theorem unescape_host_identity (t : Str)
    (hall : ∀ c ∈ t, ¬c = '%' ∧
      (c = '+' ∨ 0x80 ≤ c.toNat ∨ shouldEscape c Encoding.host = false)) :
    unescape Encoding.host t = Except.ok t := by
  induction t with
  | nil => rfl
  | cons c rest ih =>
    have ihr : unescape Encoding.host rest = Except.ok rest :=
      ih (fun d hd => hall d (List.mem_cons_of_mem _ hd))
    obtain ⟨hnp, hc⟩ := hall c (List.mem_cons_self _ _)
    by_cases hplus : c = '+'
    · subst hplus
      rw [unescape.eq_4, ihr]
      simp [Except.map]
    · rw [unescape.eq_5 Encoding.host c rest hnp hplus]
      split
      · rename_i hgt
        exfalso
        have hse := Bool.and_elim_right hgt
        have h80 : c.toNat < 0x80 :=
          of_decide_eq_true (Bool.and_elim_right (Bool.and_elim_left hgt))
        rcases hc with hc | hc | hc
        · exact hplus hc
        · omega
        · rw [hc] at hse
          cases hse
      · rw [ihr]
        simp [Except.map]

theorem unescape_path_identity (t : Str) (hnp : '%' ∉ t) :
    unescape Encoding.path t = Except.ok t := by
  induction t with
  | nil => rfl
  | cons c rest ih =>
    have hcp : ¬c = '%' := fun he => hnp (he ▸ List.mem_cons_self _ _)
    have ihr := ih (fun hd => hnp (List.mem_cons_of_mem _ hd))
    by_cases hplus : c = '+'
    · subst hplus
      rw [unescape.eq_4, ihr]
      simp [Except.map]
    · rw [unescape.eq_5 Encoding.path c rest hcp hplus]
      split
      · rename_i hgt
        exfalso
        have hmode := Bool.and_elim_left (Bool.and_elim_left hgt)
        simp at hmode
      · rw [ihr]
        simp [Except.map]

theorem alphaNum_noescape (c : Char) (m : Encoding) (h : isAlphaNum c = true) :
    shouldEscape c m = false := by
  unfold shouldEscape
  rw [if_pos h]

theorem validOptionalPort_cons (c0 : Char) (d : Str)
    (h : validOptionalPort (c0 :: d) = true) : c0 = ':' ∧ d.all isDigit09 = true := by
  unfold validOptionalPort at h
  split at h
  · rename_i heq
    cases heq
  · rename_i d' heq
    injection heq with h1 h2
    subst h1
    subst h2
    exact ⟨rfl, h⟩
  · cases h

theorem validOptionalPort_unescape (a : Str) (h : validOptionalPort a = true) :
    unescape Encoding.host a = Except.ok a := by
  apply unescape_host_identity
  intro c hc
  cases a with
  | nil => cases hc
  | cons c0 digits =>
    obtain ⟨hc0, hdigs⟩ := validOptionalPort_cons c0 digits h
    subst hc0
    rcases List.mem_cons.mp hc with hc | hc
    · subst hc
      exact ⟨by decide, Or.inr (Or.inr (by decide))⟩
    · have hdig : isDigit09 c = true := by
        rw [List.all_eq_true] at hdigs
        simpa using hdigs c hc
      have h1 : (48 : Nat) ≤ c.toNat := of_decide_eq_true (Bool.and_elim_left hdig)
      have h2 : c.toNat ≤ 57 := of_decide_eq_true (Bool.and_elim_right hdig)
      refine ⟨fun he => ?_, Or.inr (Or.inr ?_)⟩
      · subst he
        have h37 : ('%').toNat = 37 := rfl
        omega
      · exact alphaNum_noescape c Encoding.host (by
          simp only [isAlphaNum, Bool.or_eq_true]
          exact Or.inr hdig)

theorem unescape_host_head (mode : Encoding) (hm : mode = Encoding.host) (s t : Str)
    (h : unescape mode s = Except.ok t) :
    t.head? = s.head? ∨ ∃ d, t.head? = some d ∧ (d = '%' ∨ 0x80 ≤ d.toNat) := by
  induction s using unescape.induct mode generalizing t with
  | case1 =>
    simp only [unescape, Except.ok.injEq] at h
    subst h
    exact Or.inl rfl
  | case2 c1 c2 rest2 hhex hrej =>
    simp only [unescape, hhex, hrej] at h
    simp at h
  | case3 c1 c2 rest2 hhex hrej1 hrej2 =>
    simp only [Bool.not_eq_true] at hrej1
    simp only [unescape, hhex, hrej1, hrej2] at h
    simp at h
  | case4 c1 c2 rest2 hhex hrej1 hrej2 ih =>
    simp only [Bool.not_eq_true] at hrej1 hrej2
    simp only [unescape, hhex, hrej1, hrej2, Bool.false_eq_true, if_false, if_true] at h
    cases hu : unescape mode rest2 with
    | error e => rw [hu] at h; simp [Except.map] at h
    | ok t' =>
      rw [hu] at h
      simp only [Except.map, Except.ok.injEq] at h
      subst h
      right
      refine ⟨Char.ofNat (unhex c1 * 16 + unhex c2), rfl, ?_⟩
      subst hm
      simp only [decide_eq_true_eq, Bool.and_eq_false_iff, decide_eq_false_iff_not,
        not_not, not_lt] at hrej1
      rcases hrej1 with (h8 | h8) | h8
      · simp at h8
      · right
        have hv : unhex c1 * 16 + unhex c2 < 0xd800 := by
          have := unhex_lt c1
          have := unhex_lt c2
          omega
        rw [char_ofNat_toNat hv]
        have := unhex_lt c2
        omega
      · obtain ⟨h25a, h25b⟩ := h8
        subst h25a
        subst h25b
        left
        decide
  | case5 c1 c2 rest2 hhex =>
    simp only [Bool.not_eq_true] at hhex
    simp only [unescape, hhex] at h
    simp at h
  | case6 rest hshort =>
    cases rest with
    | nil => simp [unescape] at h
    | cons c1 rest' =>
      cases rest' with
      | nil => simp [unescape] at h
      | cons c2 rest2 => exact absurd rfl (fun he => hshort c1 c2 rest2 he)
  | case7 rest ih =>
    rw [unescape.eq_4] at h
    have hplus : (if mode = Encoding.queryComponent then ' ' else '+') = '+' := by
      subst hm
      rfl
    rw [hplus] at h
    cases hu : unescape mode rest with
    | error e => rw [hu] at h; simp [Except.map] at h
    | ok t' =>
      rw [hu] at h
      simp only [Except.map, Except.ok.injEq] at h
      subst h
      exact Or.inl rfl
  | case8 c rest hp hpl hrej =>
    rw [unescape.eq_5 mode c rest hp hpl, if_pos hrej] at h
    cases h
  | case9 c rest hp hpl hrej ih =>
    rw [unescape.eq_5 mode c rest hp hpl, if_neg hrej] at h
    cases hu : unescape mode rest with
    | error e => rw [hu] at h; simp [Except.map] at h
    | ok t' =>
      rw [hu] at h
      simp only [Except.map, Except.ok.injEq] at h
      subst h
      exact Or.inl rfl

theorem unescape_host_decompose (mode : Encoding) (hm : mode = Encoding.host)
    (sep : Char) (hs2 : ishex sep = false)
    (hs3 : ¬sep = '%') (hs4 : ¬sep = '+') (b a : Str) :
    ∀ out, unescape mode (b ++ sep :: a) = Except.ok out →
      ∃ tb ta, unescape mode b = Except.ok tb ∧ unescape mode a = Except.ok ta ∧
        out = tb ++ sep :: ta := by
  induction b using unescape.induct mode with
  | case1 =>
    intro out h
    rw [List.nil_append] at h
    obtain ⟨t', ht, hrest⟩ := unescape_cons_raw mode sep a out h hs3 hs4
    exact ⟨[], t', by simp [unescape], hrest, by rw [ht]; rfl⟩
  | case2 c1 c2 rest2 hhex hrej =>
    intro out h
    simp only [List.cons_append] at h
    simp only [unescape, hhex, hrej] at h
    simp at h
  | case3 c1 c2 rest2 hhex hrej1 hrej2 =>
    intro out h
    simp only [List.cons_append] at h
    simp only [Bool.not_eq_true] at hrej1
    simp only [unescape, hhex, hrej1, hrej2] at h
    simp at h
  | case4 c1 c2 rest2 hhex hrej1 hrej2 ih =>
    intro out h
    simp only [List.cons_append] at h
    simp only [Bool.not_eq_true] at hrej1 hrej2
    simp only [unescape, hhex, hrej1, hrej2, Bool.false_eq_true, if_false, if_true] at h
    cases hu : unescape mode (rest2 ++ sep :: a) with
    | error e => rw [hu] at h; simp [Except.map] at h
    | ok out' =>
      rw [hu] at h
      simp only [Except.map, Except.ok.injEq] at h
      subst h
      obtain ⟨tb, ta, h1, h2, h3⟩ := ih out' hu
      refine ⟨Char.ofNat (unhex c1 * 16 + unhex c2) :: tb, ta, ?_, h2, ?_⟩
      · simp only [unescape, hhex, hrej1, hrej2, Bool.false_eq_true, if_false, if_true]
        rw [h1]
        rfl
      · rw [h3]
        rfl
  | case5 c1 c2 rest2 hhex =>
    intro out h
    simp only [List.cons_append] at h
    simp only [Bool.not_eq_true] at hhex
    simp only [unescape, hhex] at h
    simp at h
  | case6 rest hshort =>
    intro out h
    cases rest with
    | nil =>
      rw [List.cons_append, List.nil_append] at h
      cases a with
      | nil => simp [unescape, hs2] at h
      | cons a1 a2 => simp [unescape, hs2] at h
    | cons c1 rest' =>
      cases rest' with
      | nil =>
        rw [List.cons_append, List.cons_append, List.nil_append] at h
        simp [unescape, hs2] at h
      | cons c2 rest2 => exact absurd rfl (fun he => hshort c1 c2 rest2 he)
  | case7 rest ih =>
    intro out h
    simp only [List.cons_append] at h
    rw [unescape.eq_4] at h
    have hplus : (if mode = Encoding.queryComponent then ' ' else '+') = '+' := by
      subst hm
      rfl
    rw [hplus] at h
    cases hu : unescape mode (rest ++ sep :: a) with
    | error e => rw [hu] at h; simp [Except.map] at h
    | ok out' =>
      rw [hu] at h
      simp only [Except.map, Except.ok.injEq] at h
      subst h
      obtain ⟨tb, ta, h1, h2, h3⟩ := ih out' hu
      refine ⟨'+' :: tb, ta, ?_, h2, ?_⟩
      · rw [unescape.eq_4, hplus, h1]
        rfl
      · rw [h3]
        rfl
  | case8 c rest hp hpl hrej =>
    intro out h
    rw [List.cons_append] at h
    rw [unescape.eq_5 mode c (rest ++ sep :: a) hp hpl, if_pos hrej] at h
    cases h
  | case9 c rest hp hpl hrej ih =>
    intro out h
    rw [List.cons_append] at h
    rw [unescape.eq_5 mode c (rest ++ sep :: a) hp hpl, if_neg hrej] at h
    cases hu : unescape mode (rest ++ sep :: a) with
    | error e => rw [hu] at h; simp [Except.map] at h
    | ok out' =>
      rw [hu] at h
      simp only [Except.map, Except.ok.injEq] at h
      subst h
      obtain ⟨tb, ta, h1, h2, h3⟩ := ih out' hu
      refine ⟨c :: tb, ta, ?_, h2, ?_⟩
      · rw [unescape.eq_5 mode c rest hp hpl, if_neg hrej, h1]
        rfl
      · rw [h3]
        rfl

theorem cutLastChar_not_mem (s : Str) (sep : Char) (h : sep ∉ s) :
    cutLastChar s sep = none := by
  cases hc : cutLastChar s sep with
  | none => rfl
  | some p =>
    obtain ⟨b, a⟩ := p
    obtain ⟨hsplit, _⟩ := cutLastChar_eq s sep b a hc
    exact absurd (show sep ∈ s from by
      rw [hsplit]
      exact List.mem_append_right b (List.mem_cons_self sep a)) h

theorem cutLastChar_append (x : Str) (sep : Char) (y : Str) (hy : sep ∉ y) :
    cutLastChar (x ++ sep :: y) sep = some (x, y) := by
  induction x with
  | nil =>
    rw [List.nil_append]
    simp only [cutLastChar, cutLastChar_not_mem y sep hy, if_pos rfl]
    rw [if_pos trivial]
  | cons c x' ih =>
    rw [List.cons_append]
    unfold cutLastChar
    rw [ih]

theorem cutChar_not_mem (s : Str) (sep : Char) (h : sep ∉ s) :
    (cutChar s sep).2.2 = false := by
  induction s with
  | nil => rfl
  | cons c rest ih =>
    have hc : ¬c = sep := fun he => h (he ▸ List.mem_cons_self c rest)
    simp only [cutChar, if_neg hc]
    exact ih (fun hm => h (List.mem_cons_of_mem _ hm))

theorem splitChar_not_mem_eq (s : Str) (sep : Char) (cutc : Bool) (h : sep ∉ s) :
    splitChar s sep cutc = (s, []) := by
  simp only [splitChar, cutChar_not_mem s sep h, Bool.false_eq_true, if_false]

theorem splitChar_false_snd (s : Str) (sep : Char) :
    (splitChar s sep false).2 = [] ∨ (splitChar s sep false).2.head? = some sep := by
  by_cases hf : (cutChar s sep).2.2 = true
  · right
    simp only [splitChar]
    rw [if_pos hf, if_neg (by exact Bool.false_ne_true)]
    rfl
  · left
    simp only [splitChar]
    rw [if_neg hf]

theorem indexOfSeq_head_not_mem (s : Str) (x : Char) (p : Str) (hx : x ∉ s) :
    indexOfSeq s (x :: p) = none := by
  induction s with
  | nil =>
    unfold indexOfSeq
    rw [if_neg (by simp)]
  | cons c rest ih =>
    have hne : ¬(x :: p = (c :: rest).take (x :: p).length) := by
      intro he
      rw [List.length_cons, List.take_succ_cons] at he
      have h1 : x = c := ((List.cons.injEq x p c (rest.take p.length)).mp he).1
      exact hx (h1 ▸ List.mem_cons_self c rest)
    unfold indexOfSeq
    rw [if_neg hne, ih (fun hm => hx (List.mem_cons_of_mem _ hm))]
    rfl

theorem indexOfSeq_some_prefix (s p : Str) :
    ∀ z, indexOfSeq s p = some z → (s.drop z).take p.length = p := by
  induction s with
  | nil =>
    intro z h
    unfold indexOfSeq at h
    split at h
    · rename_i hp
      rw [Option.some.injEq] at h
      subst h
      rw [hp]
      rfl
    · cases h
  | cons c rest ih =>
    intro z h
    unfold indexOfSeq at h
    split at h
    · rename_i hp
      rw [Option.some.injEq] at h
      subst h
      rw [List.drop_zero]
      exact hp.symm
    · cases ho : indexOfSeq rest p with
      | none => rw [ho] at h; cases h
      | some z' =>
        rw [ho] at h
        simp only [Option.map_some', Option.some.injEq] at h
        subst h
        rw [List.drop_succ_cons]
        exact ih z' ho

theorem unescape_zone_25 (r : Str) :
    unescape Encoding.zone ('%' :: '2' :: '5' :: r) =
      (unescape Encoding.zone r).map (fun x => '%' :: x) := rfl

theorem all_digits_unescape (a : Str) (h : a.all isDigit09 = true) :
    unescape Encoding.host a = Except.ok a := by
  apply unescape_host_identity
  intro c hc
  have hdig : isDigit09 c = true := by
    rw [List.all_eq_true] at h
    simpa using h c hc
  have h1 : (48 : Nat) ≤ c.toNat := of_decide_eq_true (Bool.and_elim_left hdig)
  have h2 : c.toNat ≤ 57 := of_decide_eq_true (Bool.and_elim_right hdig)
  refine ⟨fun he => ?_, Or.inr (Or.inr ?_)⟩
  · subst he
    have h37 : ('%').toNat = 37 := rfl
    omega
  · exact alphaNum_noescape c Encoding.host (by
      simp only [isAlphaNum, Bool.or_eq_true]
      exact Or.inr hdig)

theorem parseHost_bracket_eq (hostS tb a : Str) (hh : hostS.head? = some '[')
    (hcl : cutLastChar hostS ']' = some (tb, a)) (hvp : validOptionalPort a = true)
    (hz : indexOfSeq tb (str "%25") = none) :
    parseHost hostS = unescape Encoding.host hostS := by
  unfold parseHost
  rw [if_pos hh]
  simp only [hcl, hvp, Bool.not_true, Bool.false_eq_true, if_false, hz]

theorem parseHost_plain_eq (hostS : Str) (hh : ¬hostS.head? = some '[')
    (hplain : cutLastChar hostS ':' = none ∨
      ∃ tb a, cutLastChar hostS ':' = some (tb, a) ∧ validOptionalPort (':' :: a) = true) :
    parseHost hostS = unescape Encoding.host hostS := by
  unfold parseHost
  rw [if_neg hh]
  rcases hplain with hcl | ⟨tb, a, hcl, hvp⟩
  · simp only [hcl]
  · simp only [hcl, hvp, Bool.not_true, Bool.false_eq_true, if_false]

theorem parseHost_reparse (raw out : Str) (h : parseHost raw = Except.ok out)
    (hnp : '%' ∉ out) : parseHost out = Except.ok out := by
  unfold parseHost at h
  split at h
  · rename_i hbr
    cases hcl : cutLastChar raw ']' with
    | none => simp only [hcl] at h; cases h
    | some p =>
      obtain ⟨b, a⟩ := p
      simp only [hcl] at h
      obtain ⟨hsplit, hnra⟩ := cutLastChar_eq raw ']' b a hcl
      split at h
      · cases h
      · rename_i hvp'
        have hvp : validOptionalPort a = true := by simpa using hvp'
        cases hz : indexOfSeq b (str "%25") with
        | some z =>
          exfalso
          simp only [hz] at h
          cases hu1 : unescape Encoding.host (b.take z) with
          | error e => simp only [hu1] at h; cases h
          | ok t1 =>
            cases hu2 : unescape Encoding.zone (b.drop z) with
            | error e => simp only [hu1, hu2] at h; cases h
            | ok t2 =>
              cases hu3 : unescape Encoding.host (']' :: a) with
              | error e => simp only [hu1, hu2, hu3] at h; cases h
              | ok t3 =>
                simp only [hu1, hu2, hu3, Except.ok.injEq] at h
                have hpre := indexOfSeq_some_prefix b (str "%25") z hz
                have hstruct : ∃ r, b.drop z = '%' :: '2' :: '5' :: r := by
                  rcases hl : b.drop z with _ | ⟨x1, _ | ⟨x2, _ | ⟨x3, r⟩⟩⟩
                  · rw [hl] at hpre; cases hpre
                  · rw [hl] at hpre; cases hpre
                  · rw [hl] at hpre; cases hpre
                  · rw [hl] at hpre
                    have hx : x1 = '%' ∧ x2 = '2' ∧ x3 = '5' := by
                      have hthis : List.take (str "%25").length (x1 :: x2 :: x3 :: r) =
                          str "%25" := hpre
                      rw [show (str "%25").length = 3 from rfl,
                        show str "%25" = ['%', '2', '5'] from rfl] at hthis
                      simpa using hthis
                    obtain ⟨e1, e2, e3⟩ := hx
                    subst e1; subst e2; subst e3
                    exact ⟨r, rfl⟩
                obtain ⟨r, hr⟩ := hstruct
                rw [hr, unescape_zone_25] at hu2
                cases hur : unescape Encoding.zone r with
                | error e => rw [hur] at hu2; simp [Except.map] at hu2
                | ok t' =>
                  rw [hur] at hu2
                  simp only [Except.map, Except.ok.injEq] at hu2
                  apply hnp
                  rw [← h, ← hu2]
                  exact List.mem_append_left _ (List.mem_append_right _
                    (List.mem_cons_self _ _))
        | none =>
          simp only [hz] at h
          rw [hsplit] at h
          obtain ⟨tb, ta, htb, hta, hout⟩ := unescape_host_decompose Encoding.host rfl ']'
            (by decide) (by decide) (by decide) b a out h
          have hta2 := validOptionalPort_unescape a hvp
          rw [hta] at hta2
          have htaa : ta = a := Except.ok.inj hta2
          subst htaa
          cases b with
          | nil =>
            rw [hsplit] at hbr
            simp at hbr
          | cons b0 b1 =>
            have hb0 : b0 = '[' := by
              rw [hsplit] at hbr
              simpa using hbr
            subst hb0
            obtain ⟨tb1, htb1, _⟩ := unescape_cons_raw Encoding.host '[' b1 tb htb
              (by decide) (by decide)
            have hoh : out.head? = some '[' := by
              rw [hout, htb1]
              rfl
            have hcl2 : cutLastChar out ']' = some (tb, ta) := by
              rw [hout]
              exact cutLastChar_append tb ']' ta hnra
            have hz2 : indexOfSeq tb (str "%25") = none := by
              apply indexOfSeq_head_not_mem
              intro hm
              exact hnp (by
                rw [hout]
                exact List.mem_append_left _ hm)
            rw [parseHost_bracket_eq out tb ta hoh hcl2 hvp hz2]
            apply unescape_host_identity
            intro c hc
            refine ⟨fun he => hnp (he ▸ hc), ?_⟩
            rcases unescape_host_out Encoding.host rfl (('[' :: b1) ++ ']' :: ta) out h c hc
              with h1 | h1 | h1
            · exact absurd (h1 ▸ hc) hnp
            · exact Or.inr (Or.inl h1)
            · exact Or.inr (Or.inr h1)
  · rename_i hbr
    cases hcl : cutLastChar raw ':' with
    | some p =>
      obtain ⟨b0, a⟩ := p
      simp only [hcl] at h
      split at h
      · cases h
      · rename_i hvp'
        have hvp : validOptionalPort (':' :: a) = true := by simpa using hvp'
        obtain ⟨hsplit, hna⟩ := cutLastChar_eq raw ':' b0 a hcl
        rw [hsplit] at h
        obtain ⟨tb, ta, htb, hta, hout⟩ := unescape_host_decompose Encoding.host rfl ':'
          (by decide) (by decide) (by decide) b0 a out h
        have hdigs : a.all isDigit09 = true := (validOptionalPort_cons ':' a hvp).2
        have hta2 := all_digits_unescape a hdigs
        rw [hta] at hta2
        have htaa : ta = a := Except.ok.inj hta2
        subst htaa
        have hh2 : ¬out.head? = some '[' := by
          intro hoh
          cases htbs : tb with
          | nil =>
            rw [hout, htbs] at hoh
            simp at hoh
          | cons d tb1 =>
            have hd : d = '[' := by
              rw [hout, htbs] at hoh
              simpa using hoh
            subst hd
            rcases unescape_host_head Encoding.host rfl b0 tb htb with h1 | ⟨d2, hd2, hdp⟩
            · rw [htbs] at h1
              cases hb0s : b0 with
              | nil =>
                rw [hb0s] at h1
                cases h1
              | cons e b0' =>
                rw [hb0s] at h1
                have he : e = '[' := by simpa using h1.symm
                subst he
                apply hbr
                rw [hsplit, hb0s]
                rfl
            · rw [htbs] at hd2
              have hd2e : d2 = '[' := by simpa using hd2.symm
              subst hd2e
              rcases hdp with hdp | hdp
              · cases hdp
              · revert hdp
                decide
        have hcl2 : cutLastChar out ':' = some (tb, ta) := by
          rw [hout]
          exact cutLastChar_append tb ':' ta hna
        rw [parseHost_plain_eq out hh2 (Or.inr ⟨tb, ta, hcl2, hvp⟩)]
        apply unescape_host_identity
        intro c hc
        refine ⟨fun he => hnp (he ▸ hc), ?_⟩
        rcases unescape_host_out Encoding.host rfl (b0 ++ ':' :: ta) out h c hc
          with h1 | h1 | h1
        · exact absurd (h1 ▸ hc) hnp
        · exact Or.inr (Or.inl h1)
        · exact Or.inr (Or.inr h1)
    | none =>
      simp only [hcl] at h
      have hnc : ':' ∉ raw := cutLastChar_none_not_mem raw ':' hcl
      have hnco : ':' ∉ out := by
        intro hm
        rcases unescape_host_prov Encoding.host rfl raw out h ':' hm with h1 | h1 | h1
        · exact hnc h1
        · cases h1
        · revert h1
          decide
      have hh2 : ¬out.head? = some '[' := by
        intro hoh
        rcases unescape_host_head Encoding.host rfl raw out h with h1 | ⟨d2, hd2, hdp⟩
        · rw [hoh] at h1
          exact hbr h1.symm
        · rw [hoh] at hd2
          have hd2e : d2 = '[' := by simpa using hd2.symm
          subst hd2e
          rcases hdp with hdp | hdp
          · cases hdp
          · revert hdp
            decide
      rw [parseHost_plain_eq out hh2 (Or.inl (cutLastChar_not_mem out ':' hnco))]
      apply unescape_host_identity
      intro c hc
      refine ⟨fun he => hnp (he ▸ hc), ?_⟩
      rcases unescape_host_out Encoding.host rfl raw out h c hc with h1 | h1 | h1
      · exact absurd (h1 ▸ hc) hnp
      · exact Or.inr (Or.inl h1)
      · exact Or.inr (Or.inr h1)

theorem getSchemeAux_head (orig : Str) (s : Str) :
    ∀ (acc sch rest : Str),
      (acc = [] ∨ ∃ c0 t, acc = c0 :: t ∧ (isUpperAZ c0 = true ∨ isLowerAZ c0 = true)) →
      getSchemeAux orig acc s = Except.ok (sch, rest) →
      sch = [] ∨ ∃ c0 t, sch = c0 :: t ∧ (isUpperAZ c0 = true ∨ isLowerAZ c0 = true) := by
  induction s with
  | nil =>
    intro acc sch rest hacc h
    simp only [getSchemeAux, Except.ok.injEq, Prod.mk.injEq] at h
    exact Or.inl h.1.symm
  | cons c s ih =>
    intro acc sch rest hacc h
    unfold getSchemeAux at h
    split at h
    · rename_i hUL
      refine ih (acc ++ [c]) sch rest ?_ h
      right
      rcases hacc with hacc | ⟨c0, t, hacc, hlet⟩
      · subst hacc
        exact ⟨c, [], rfl, by simpa using hUL⟩
      · subst hacc
        exact ⟨c0, t ++ [c], by simp, hlet⟩
    · split at h
      · split at h
        · rw [Except.ok.injEq, Prod.mk.injEq] at h
          exact Or.inl h.1.symm
        · rename_i hne
          refine ih (acc ++ [c]) sch rest ?_ h
          right
          rcases hacc with hacc | ⟨c0, t, hacc, hlet⟩
          · exact absurd hacc hne
          · subst hacc
            exact ⟨c0, t ++ [c], by simp, hlet⟩
      · split at h
        · split at h
          · cases h
          · rename_i hne
            rw [Except.ok.injEq, Prod.mk.injEq] at h
            obtain ⟨h1, h2⟩ := h
            rcases hacc with hacc | ⟨c0, t, hacc, hlet⟩
            · exact absurd hacc hne
            · exact Or.inr ⟨c0, t, h1 ▸ hacc, hlet⟩
        · rw [Except.ok.injEq, Prod.mk.injEq] at h
          exact Or.inl h.1.symm

theorem getScheme_head (raw sch rest : Str) (h : getScheme raw = Except.ok (sch, rest)) :
    sch = [] ∨ ∃ c0 t, sch = c0 :: t ∧ (isUpperAZ c0 = true ∨ isLowerAZ c0 = true) :=
  getSchemeAux_head raw raw [] sch rest (Or.inl rfl) h

theorem getSchemeAux_runs (orig : Str) (sch' : Str) :
    ∀ (acc rest : Str), (∀ c ∈ sch', isSchemeByte c = true) →
      (¬acc = [] ∨ ∃ c0 t, sch' = c0 :: t ∧ (isUpperAZ c0 = true ∨ isLowerAZ c0 = true)) →
      getSchemeAux orig acc (sch' ++ ':' :: rest) = Except.ok (acc ++ sch', rest) := by
  induction sch' with
  | nil =>
    intro acc rest hbytes hne
    rw [List.nil_append]
    unfold getSchemeAux
    rw [if_neg (by decide), if_neg (by decide), if_pos rfl]
    rcases hne with hne | ⟨c0, t0, hct, hlet⟩
    · rw [if_neg hne]
      simp
    · cases hct
  | cons c t ih =>
    intro acc rest hbytes hne
    rw [List.cons_append]
    unfold getSchemeAux
    have hcb : isSchemeByte c = true := hbytes c (List.mem_cons_self _ _)
    by_cases hUL : (isUpperAZ c || isLowerAZ c) = true
    · rw [if_pos hUL,
        ih (acc ++ [c]) rest (fun d hd => hbytes d (List.mem_cons_of_mem _ hd))
          (Or.inl (by simp))]
      simp
    · rw [if_neg hUL]
      have hdig : (isDigit09 c || c = '+' || c = '-' || c = '.') = true := by
        simp only [isSchemeByte, Bool.or_eq_true, decide_eq_true_eq] at hcb
        simp only [Bool.or_eq_true] at hUL
        simp only [Bool.or_eq_true, decide_eq_true_eq]
        tauto
      rw [if_pos hdig]
      have hane : ¬acc = [] := by
        rcases hne with hne | ⟨c0, t0, hct, hlet⟩
        · exact hne
        · exfalso
          injection hct with h1 h2
          subst h1
          apply hUL
          simp only [Bool.or_eq_true]
          exact hlet
      rw [if_neg hane,
        ih (acc ++ [c]) rest (fun d hd => hbytes d (List.mem_cons_of_mem _ hd))
          (Or.inl (by simp))]
      simp

theorem getScheme_runs (sch rest : Str) (hbytes : ∀ c ∈ sch, isSchemeByte c = true)
    (hhead : ∃ c0 t, sch = c0 :: t ∧ (isUpperAZ c0 = true ∨ isLowerAZ c0 = true)) :
    getScheme (sch ++ ':' :: rest) = Except.ok (sch, rest) := by
  unfold getScheme
  rw [getSchemeAux_runs (sch ++ ':' :: rest) sch [] rest hbytes (Or.inr hhead)]
  simp

theorem parseAuthority_ok_host (authority : Str) (user : Option Userinfo) (host : Str)
    (h : parseAuthority authority = Except.ok (user, host)) :
    (∃ rawh, parseHost rawh = Except.ok host) ∧ '@' ∉ host := by
  unfold parseAuthority at h
  cases hb : cutLastChar authority '@' with
  | none =>
    simp only [hb] at h
    cases hh : parseHost authority with
    | error e => simp only [hh] at h; cases h
    | ok out =>
      simp only [hh, Except.ok.injEq, Prod.mk.injEq] at h
      rw [← h.2]
      exact ⟨⟨authority, hh⟩, parseHost_not_mem authority out '@' hh
        (cutLastChar_none_not_mem authority '@' hb) (by decide) (by decide)
        (by decide) (by decide)⟩
  | some p =>
    obtain ⟨ui, hpart⟩ := p
    simp only [hb] at h
    obtain ⟨hsplit, hnm⟩ := cutLastChar_eq authority '@' ui hpart hb
    cases hh : parseHost hpart with
    | error e => simp only [hh] at h; cases h
    | ok out =>
      simp only [hh] at h
      have hna : '@' ∉ out := parseHost_not_mem hpart out '@' hh hnm (by decide) (by decide)
        (by decide) (by decide)
      split at h
      · cases h
      · split at h
        · cases hu : unescape Encoding.userPassword ui with
          | error e => simp only [hu] at h; cases h
          | ok u1 =>
            simp only [hu, Except.ok.injEq, Prod.mk.injEq] at h
            rw [← h.2]
            exact ⟨⟨hpart, hh⟩, hna⟩
        · cases hu1 : unescape Encoding.userPassword (cutChar ui ':').1 with
          | error e => simp only [hu1] at h; cases h
          | ok u1 =>
            cases hu2 : unescape Encoding.userPassword (cutChar ui ':').2.1 with
            | error e => simp only [hu1, hu2] at h; cases h
            | ok u2 =>
              simp only [hu1, hu2, Except.ok.injEq, Prod.mk.injEq] at h
              rw [← h.2]
              exact ⟨⟨hpart, hh⟩, hna⟩

theorem unescape_path_head (s d : Str) (h : unescape Encoding.path s = Except.ok d)
    (hs : s.head? = some '/') : d.head? = some '/' := by
  cases s with
  | nil => cases hs
  | cons c s' =>
    have hc : c = '/' := by simpa using hs
    subst hc
    obtain ⟨t', ht, _⟩ := unescape_cons_raw Encoding.path '/' s' d h (by decide) (by decide)
    rw [ht]
    rfl

theorem parseURL_facts (raw : Str) (via : Bool) (p : URL) (hr : '#' ∉ raw)
    (h : parseURL raw via = Except.ok p) :
    (∃ s0, p.Scheme = toLowerStr s0 ∧ (∀ c ∈ s0, isSchemeByte c = true) ∧
      (s0 = [] ∨ ∃ c0 t, s0 = c0 :: t ∧ (isUpperAZ c0 = true ∨ isLowerAZ c0 = true))) ∧
    (p.Path = [] ∨ p.Path.head? = some '/' ∨ p.Scheme = []) ∧
    ('#' ∉ p.Host ∧ '?' ∉ p.Host ∧ '/' ∉ p.Host ∧ '@' ∉ p.Host) ∧
    ((∃ rawh, parseHost rawh = Except.ok p.Host) ∨ p.Host = []) := by
  unfold parseURL at h
  split at h
  · cases h
  · split at h
    · cases h
    · split at h
      · rw [Except.ok.injEq] at h
        subst h
        exact ⟨⟨[], rfl, by simp, Or.inl rfl⟩, Or.inr (Or.inr rfl),
          ⟨List.not_mem_nil _, List.not_mem_nil _, List.not_mem_nil _, List.not_mem_nil _⟩,
          Or.inr rfl⟩
      · cases hg : getScheme raw with
        | error e => simp only [hg] at h; cases h
        | ok pr =>
          obtain ⟨sch0, rest0⟩ := pr
          simp only [hg] at h
          obtain ⟨hsch, hrest0sub⟩ := getScheme_ok raw sch0 rest0 hg
          have hhead0 := getScheme_head raw sch0 rest0 hg
          have hh0 : '#' ∉ rest0 := fun hm => hr (hrest0sub '#' hm)
          by_cases hguard : List.getLast? rest0 = some '?' ∧
              ¬(List.dropLast rest0).contains '?' = true
          · rw [if_pos hguard] at h
            have hrq : '?' ∉ List.dropLast rest0 := by
              have h2 := hguard.2
              simp only [Bool.not_eq_true] at h2
              exact contains_false_not_mem _ _ h2
            have hh1 : '#' ∉ List.dropLast rest0 :=
              fun hm => hh0 (List.dropLast_subset _ hm)
            split at h
            · rw [Except.ok.injEq] at h
              subst h
              exact ⟨⟨sch0, rfl, hsch, hhead0⟩, Or.inl rfl,
                ⟨List.not_mem_nil _, List.not_mem_nil _, List.not_mem_nil _,
                  List.not_mem_nil _⟩, Or.inr rfl⟩
            · rename_i hnA
              split at h
              · cases h
              · split at h
                · cases h
                · split at h
                  · cases ha : parseAuthority
                        (splitChar ((List.dropLast rest0).drop 2) '/' false).1 with
                    | error e => simp only [ha] at h; cases h
                    | ok uh =>
                      obtain ⟨user, host⟩ := uh
                      simp only [ha] at h
                      obtain ⟨d, hd, hp⟩ := setPath_fields _ _ _ h
                      subst hp
                      have hauthsub : ∀ x, x ∈ (splitChar ((List.dropLast rest0).drop 2)
                          '/' false).1 → x ∈ List.dropLast rest0 :=
                        fun x hm => List.drop_subset 2 _ (splitChar_fst_subset _ '/' false x hm)
                      refine ⟨⟨sch0, rfl, hsch, hhead0⟩, ?_, ⟨?_, ?_, ?_,
                        (parseAuthority_ok_host _ _ _ ha).2⟩,
                        Or.inl (parseAuthority_ok_host _ _ _ ha).1⟩
                      · show d = [] ∨ d.head? = some '/' ∨ toLowerStr sch0 = []
                        rcases splitChar_false_snd ((List.dropLast rest0).drop 2) '/'
                          with hsp | hsp
                        · left
                          rw [hsp] at hd
                          simp only [unescape, Except.ok.injEq] at hd
                          exact hd.symm
                        · exact Or.inr (Or.inl (unescape_path_head _ _ hd hsp))
                      · show '#' ∉ host
                        exact parseAuthority_host_not_mem _ user host '#' ha
                          (fun hm => hh1 (hauthsub '#' hm)) (by decide) (by decide)
                          (by decide) (by decide)
                      · show '?' ∉ host
                        exact parseAuthority_host_not_mem _ user host '?' ha
                          (fun hm => hrq (hauthsub '?' hm)) (by decide) (by decide)
                          (by decide) (by decide)
                      · show '/' ∉ host
                        exact parseAuthority_host_not_mem _ user host '/' ha
                          (splitChar_fst_not_mem _ '/' false) (by decide) (by decide)
                          (by decide) (by decide)
                  · obtain ⟨d, hd, hp⟩ := setPath_fields _ _ _ h
                    subst hp
                    refine ⟨⟨sch0, rfl, hsch, hhead0⟩, ?_, ⟨List.not_mem_nil _,
                      List.not_mem_nil _, List.not_mem_nil _, List.not_mem_nil _⟩,
                      Or.inr rfl⟩
                    show d = [] ∨ d.head? = some '/' ∨ toLowerStr sch0 = []
                    by_cases hsch0 : toLowerStr sch0 = []
                    · exact Or.inr (Or.inr hsch0)
                    · have hhead : (List.dropLast rest0).head? = some '/' := by
                        rcases not_and_or.mp hnA with hx | hx
                        · exact not_not.mp hx
                        · exact absurd (not_not.mp hx) hsch0
                      exact Or.inr (Or.inl (unescape_path_head _ _ hd hhead))
          · rw [if_neg hguard] at h
            have hrq : '?' ∉ (splitChar rest0 '?' true).1 := splitChar_fst_not_mem rest0 '?' true
            have hh1 : '#' ∉ (splitChar rest0 '?' true).1 :=
              fun hm => hh0 (splitChar_fst_subset rest0 '?' true '#' hm)
            split at h
            · rw [Except.ok.injEq] at h
              subst h
              exact ⟨⟨sch0, rfl, hsch, hhead0⟩, Or.inl rfl,
                ⟨List.not_mem_nil _, List.not_mem_nil _, List.not_mem_nil _,
                  List.not_mem_nil _⟩, Or.inr rfl⟩
            · rename_i hnA
              split at h
              · cases h
              · split at h
                · cases h
                · split at h
                  · cases ha : parseAuthority
                        (splitChar ((splitChar rest0 '?' true).1.drop 2) '/' false).1 with
                    | error e => simp only [ha] at h; cases h
                    | ok uh =>
                      obtain ⟨user, host⟩ := uh
                      simp only [ha] at h
                      obtain ⟨d, hd, hp⟩ := setPath_fields _ _ _ h
                      subst hp
                      have hauthsub : ∀ x, x ∈ (splitChar ((splitChar rest0 '?' true).1.drop 2)
                          '/' false).1 → x ∈ (splitChar rest0 '?' true).1 :=
                        fun x hm => List.drop_subset 2 _ (splitChar_fst_subset _ '/' false x hm)
                      refine ⟨⟨sch0, rfl, hsch, hhead0⟩, ?_, ⟨?_, ?_, ?_,
                        (parseAuthority_ok_host _ _ _ ha).2⟩,
                        Or.inl (parseAuthority_ok_host _ _ _ ha).1⟩
                      · show d = [] ∨ d.head? = some '/' ∨ toLowerStr sch0 = []
                        rcases splitChar_false_snd ((splitChar rest0 '?' true).1.drop 2) '/'
                          with hsp | hsp
                        · left
                          rw [hsp] at hd
                          simp only [unescape, Except.ok.injEq] at hd
                          exact hd.symm
                        · exact Or.inr (Or.inl (unescape_path_head _ _ hd hsp))
                      · show '#' ∉ host
                        exact parseAuthority_host_not_mem _ user host '#' ha
                          (fun hm => hh1 (hauthsub '#' hm)) (by decide) (by decide)
                          (by decide) (by decide)
                      · show '?' ∉ host
                        exact parseAuthority_host_not_mem _ user host '?' ha
                          (fun hm => hrq (hauthsub '?' hm)) (by decide) (by decide)
                          (by decide) (by decide)
                      · show '/' ∉ host
                        exact parseAuthority_host_not_mem _ user host '/' ha
                          (splitChar_fst_not_mem _ '/' false) (by decide) (by decide)
                          (by decide) (by decide)
                  · obtain ⟨d, hd, hp⟩ := setPath_fields _ _ _ h
                    subst hp
                    refine ⟨⟨sch0, rfl, hsch, hhead0⟩, ?_, ⟨List.not_mem_nil _,
                      List.not_mem_nil _, List.not_mem_nil _, List.not_mem_nil _⟩,
                      Or.inr rfl⟩
                    show d = [] ∨ d.head? = some '/' ∨ toLowerStr sch0 = []
                    by_cases hsch0 : toLowerStr sch0 = []
                    · exact Or.inr (Or.inr hsch0)
                    · have hhead : (splitChar rest0 '?' true).1.head? = some '/' := by
                        rcases not_and_or.mp hnA with hx | hx
                        · exact not_not.mp hx
                        · exact absurd (not_not.mp hx) hsch0
                      exact Or.inr (Or.inl (unescape_path_head _ _ hd hhead))

theorem Parse_facts (raw : Str) (p : URL) (h : Parse raw = Except.ok p) :
    (∃ s0, p.Scheme = toLowerStr s0 ∧ (∀ c ∈ s0, isSchemeByte c = true) ∧
      (s0 = [] ∨ ∃ c0 t, s0 = c0 :: t ∧ (isUpperAZ c0 = true ∨ isLowerAZ c0 = true))) ∧
    (p.Path = [] ∨ p.Path.head? = some '/' ∨ p.Scheme = []) ∧
    ('#' ∉ p.Host ∧ '?' ∉ p.Host ∧ '/' ∉ p.Host ∧ '@' ∉ p.Host) ∧
    ((∃ rawh, parseHost rawh = Except.ok p.Host) ∨ p.Host = []) := by
  unfold Parse at h
  cases hp0 : parseURL (splitChar raw '#' true).1 false with
  | error e => simp only [hp0] at h; cases h
  | ok p0 =>
    simp only [hp0] at h
    have hfacts := parseURL_facts (splitChar raw '#' true).1 false p0
      (splitChar_fst_not_mem raw '#' true) hp0
    split at h
    · rw [Except.ok.injEq] at h
      subst h
      exact hfacts
    · obtain ⟨d, _, hp⟩ := setFragment_fields _ _ _ h
      subst hp
      exact hfacts

theorem SanitizedURL_eq (p : URL) :
    SanitizedURL p = p.Scheme ++ ':' :: '/' :: '/' :: (p.Host ++ p.Path) := by
  unfold SanitizedURL
  split
  · simp [List.append_assoc]
  · rename_i hp
    rw [not_not] at hp
    rw [hp, List.append_nil]
    simp [List.append_assoc]

theorem getLast?_mem_list (l : Str) (a : Char) (h : l.getLast? = some a) : a ∈ l := by
  induction l with
  | nil => cases h
  | cons c rest ih =>
    cases rest with
    | nil =>
      have hac : a = c := by simpa using h.symm
      exact hac ▸ List.mem_cons_self _ _
    | cons c2 rest2 =>
      rw [List.getLast?_cons_cons] at h
      exact List.mem_cons_of_mem _ (ih h)

theorem splitChar_append_sep_false (a b : Str) (sep : Char) (h : sep ∉ a) :
    splitChar (a ++ sep :: b) sep false = (a, sep :: b) := by
  simp only [splitChar, cutChar_append_sep a b sep h]
  rw [if_pos trivial, if_neg (by exact Bool.false_ne_true)]

theorem SanitizedRawURL_reparse (p : URL)
    (hsch : ∃ s0, p.Scheme = toLowerStr s0 ∧ (∀ c ∈ s0, isSchemeByte c = true) ∧
      (s0 = [] ∨ ∃ c0 t, s0 = c0 :: t ∧ (isUpperAZ c0 = true ∨ isLowerAZ c0 = true)))
    (hpath : p.Path = [] ∨ p.Path.head? = some '/' ∨ p.Scheme = [])
    (hhf : '#' ∉ p.Host) (hhq : '?' ∉ p.Host) (hhs : '/' ∉ p.Host) (hha : '@' ∉ p.Host)
    (hhrep : (∃ rawh, parseHost rawh = Except.ok p.Host) ∨ p.Host = [])
    (hq : '?' ∉ p.Path) (hf : '#' ∉ p.Path) (hpp : '%' ∉ p.Path) (hph : '%' ∉ p.Host) :
    SanitizedRawURL (SanitizedURL p) = SanitizedURL p := by
  obtain ⟨s0, hs0, hbytes0, hhead0⟩ := hsch
  have hSeq := SanitizedURL_eq p
  have hnf : '#' ∉ SanitizedURL p := by
    intro hm
    rcases mem_SanitizedURL p '#' hm with hm | hm | hm | hm
    · rw [hs0] at hm
      obtain ⟨d, hd, hde⟩ := List.mem_map.mp hm
      have hsb := toLowerChar_schemeByte d (hbytes0 d hd)
      rw [hde] at hsb
      exact absurd hsb (by decide)
    · revert hm
      decide
    · exact hhf hm
    · exact hf hm
  have hsplitf : splitChar (SanitizedURL p) '#' true = (SanitizedURL p, []) :=
    splitChar_not_mem_eq _ '#' true hnf
  have h1 : (splitChar (SanitizedURL p) '#' true).1 = SanitizedURL p := by rw [hsplitf]
  have h2 : (splitChar (SanitizedURL p) '#' true).2 = [] := by rw [hsplitf]
  by_cases hctl : (SanitizedURL p).any isCTLByte = true
  · have herr : parseURL (SanitizedURL p) false =
        Except.error "net/url: invalid control character in URL" := by
      unfold parseURL
      rw [if_pos hctl]
    have hParse : Parse (SanitizedURL p) =
        Except.error "net/url: invalid control character in URL" := by
      unfold Parse
      rw [h1, herr]
    unfold SanitizedRawURL
    rw [hParse]
  · by_cases hps0 : p.Scheme = []
    · have hSform : SanitizedURL p = ':' :: '/' :: '/' :: (p.Host ++ p.Path) := by
        rw [hSeq, hps0]
        rfl
      have hgs : getScheme (SanitizedURL p) = Except.error "missing protocol scheme" := by
        rw [hSform]
        rfl
      have hnstar : ¬(SanitizedURL p = ['*']) := by
        rw [hSform]
        simp
      have herr : parseURL (SanitizedURL p) false =
          Except.error "missing protocol scheme" := by
        unfold parseURL
        rw [if_neg hctl, if_neg (fun hc => absurd hc.2 (by decide)), if_neg hnstar, hgs]
      have hParse : Parse (SanitizedURL p) = Except.error "missing protocol scheme" := by
        unfold Parse
        rw [h1, herr]
      unfold SanitizedRawURL
      rw [hParse]
    · have hs0ne : s0 ≠ [] := by
        intro he
        apply hps0
        rw [hs0, he]
        rfl
      have hhead1 : ∃ c0 t, s0 = c0 :: t ∧ (isUpperAZ c0 = true ∨ isLowerAZ c0 = true) := by
        rcases hhead0 with he | hx
        · exact absurd he hs0ne
        · exact hx
      obtain ⟨c0, t0, hs0c, hlet⟩ := hhead1
      have hbytesL : ∀ c ∈ p.Scheme, isSchemeByte c = true := by
        rw [hs0]
        intro c hc
        obtain ⟨d, hd, hde⟩ := List.mem_map.mp hc
        exact hde ▸ toLowerChar_schemeByte d (hbytes0 d hd)
      have hheadL : ∃ cl tl, p.Scheme = cl :: tl ∧
          (isUpperAZ cl = true ∨ isLowerAZ cl = true) := by
        refine ⟨toLowerChar c0, toLowerStr t0, ?_, Or.inr (toLowerChar_letter c0 hlet)⟩
        rw [hs0, hs0c]
        rfl
      have hgs : getScheme (SanitizedURL p) =
          Except.ok (p.Scheme, '/' :: '/' :: (p.Host ++ p.Path)) := by
        rw [hSeq]
        exact getScheme_runs p.Scheme ('/' :: '/' :: (p.Host ++ p.Path)) hbytesL hheadL
      have hlid : toLowerStr p.Scheme = p.Scheme := by
        rw [hs0]
        exact toLowerStr_idem s0
      have hrq : '?' ∉ '/' :: '/' :: (p.Host ++ p.Path) := by
        intro hm
        rcases List.mem_cons.mp hm with hm | hm
        · cases hm
        · rcases List.mem_cons.mp hm with hm | hm
          · cases hm
          · rcases List.mem_append.mp hm with hm | hm
            · exact hhq hm
            · exact hq hm
      have hguard : ¬(List.getLast? ('/' :: '/' :: (p.Host ++ p.Path)) = some '?' ∧
          ¬(List.dropLast ('/' :: '/' :: (p.Host ++ p.Path))).contains '?' = true) :=
        fun hc => hrq (getLast?_mem_list _ '?' hc.1)
      have hsplitq : splitChar ('/' :: '/' :: (p.Host ++ p.Path)) '?' true =
          ('/' :: '/' :: (p.Host ++ p.Path), []) := splitChar_not_mem_eq _ '?' true hrq
      have hsplita : splitChar (p.Host ++ p.Path) '/' false = (p.Host, p.Path) := by
        rcases hpath with hp0 | hp0 | hp0
        · rw [hp0, List.append_nil]
          exact splitChar_not_mem_eq _ '/' false hhs
        · cases hPth : p.Path with
          | nil =>
            rw [List.append_nil]
            exact splitChar_not_mem_eq _ '/' false hhs
          | cons pc pt =>
            have hpc : pc = '/' := by
              rw [hPth] at hp0
              simpa using hp0
            subst hpc
            exact splitChar_append_sep_false p.Host pt '/' hhs
        · exact absurd hp0 hps0
      have hph2 : parseHost p.Host = Except.ok p.Host := by
        rcases hhrep with ⟨rawh, hrep⟩ | hh0
        · exact parseHost_reparse rawh p.Host hrep hph
        · rw [hh0]
          rfl
      have hpauth : parseAuthority p.Host = Except.ok (none, p.Host) := by
        unfold parseAuthority
        simp only [cutLastChar_not_mem p.Host '@' hha, hph2]
      have hsetp : setPath (sanBase p) p.Path = Except.ok (sanParsed p) := by
        unfold setPath sanBase sanParsed
        rw [unescape_path_identity p.Path hpp]
      have hnstar : ¬(SanitizedURL p = ['*']) := by
        obtain ⟨cl, tl, hsc, hletl⟩ := hheadL
        rw [hSeq, hsc, List.cons_append]
        intro he
        have hcl : cl = '*' := ((List.cons.injEq _ _ _ _).mp he).1
        rw [hcl] at hletl
        revert hletl
        decide
      have hPU : parseURL (SanitizedURL p) false = Except.ok (sanParsed p) := by
        unfold parseURL
        rw [if_neg hctl, if_neg (fun hc => absurd hc.2 (by decide)), if_neg hnstar]
        simp only [hgs]
        rw [if_neg hguard]
        simp only [hsplitq]
        rw [if_neg (fun hc => hc.1 rfl), if_neg (fun hc => hc.1 rfl),
          if_neg (fun hc => hc.1 rfl),
          if_pos ⟨Or.inl (by rw [hlid]; exact hps0), rfl⟩]
        simp only [List.drop_succ_cons, List.drop_zero]
        simp only [hsplita, hpauth]
        exact hsetp
      have hParse : Parse (SanitizedURL p) = Except.ok (sanParsed p) := by
        unfold Parse
        rw [h1]
        simp only [hPU, h2]
        rw [if_pos trivial]
      unfold SanitizedRawURL
      simp only [hParse]
      simp only [SanitizedURL_eq, sanParsed]
      rw [hlid]

/-- C10 counterexample: sanitization is not idempotent.  For the input
`http://h/a%3Fb` the sanitizer decodes the path escape and prints
`http://h/a?b`; re-sanitizing that output re-parses the printed `?` as
a query delimiter and yields `http://h/a`, a different string. -/
theorem sanitize_idempotence_counterexample :
    SanitizedRawURL (str "http://h/a%3Fb") = str "http://h/a?b" ∧
      SanitizedRawURL (SanitizedRawURL (str "http://h/a%3Fb")) = str "http://h/a" ∧
      SanitizedRawURL (SanitizedRawURL (str "http://h/a%3Fb")) ≠
        SanitizedRawURL (str "http://h/a%3Fb") :=
  ⟨by rfl, by rfl, by decide⟩

/-- C10 corrected: the raw-URL sanitizer is idempotent on its fail-open
branch (unparseable input is returned unchanged, so a second pass
changes nothing), and on parseable input whenever the decoded path
contains no `?`, `#` or `%` and the decoded host contains no `%` -- the
characters whose decoded forms the sanitizer re-prints with a different
meaning on a second parse. -/
theorem sanitize_idempotent_amended :
    (∀ (u : Str) (e : String), Parse u = Except.error e →
        SanitizedRawURL (SanitizedRawURL u) = SanitizedRawURL u) ∧
      (∀ (u : Str) (p : URL), Parse u = Except.ok p →
        '?' ∉ p.Path → '#' ∉ p.Path → '%' ∉ p.Path → '%' ∉ p.Host →
        SanitizedRawURL (SanitizedRawURL u) = SanitizedRawURL u) := by
  constructor
  · intro u e hp
    have hid : SanitizedRawURL u = u := by
      unfold SanitizedRawURL
      rw [hp]
    rw [hid]
    exact hid
  · intro u p hp hq hf hpp hph
    have hs : SanitizedRawURL u = SanitizedURL p := by
      unfold SanitizedRawURL
      rw [hp]
    obtain ⟨hsch, hpath, ⟨hhf, hhq, hhs, hha⟩, hhrep⟩ := Parse_facts u p hp
    rw [hs]
    exact SanitizedRawURL_reparse p hsch hpath hhf hhq hhs hha hhrep hq hf hpp hph

/-- Witness for the amended C10 theorem: both branches applied at
concrete inputs (`://x` does not parse; `http://h/p` parses cleanly). -/
theorem sanitize_idempotent_amended_witness :
    SanitizedRawURL (SanitizedRawURL (str "://x")) = SanitizedRawURL (str "://x") ∧
      SanitizedRawURL (SanitizedRawURL (str "http://h/p")) =
        SanitizedRawURL (str "http://h/p") :=
  ⟨sanitize_idempotent_amended.1 (str "://x") "missing protocol scheme" (by rfl),
    sanitize_idempotent_amended.2 (str "http://h/p")
      { Scheme := str "http", Host := str "h", Path := str "/p" } (by rfl)
      (by decide) (by decide) (by decide) (by decide)⟩
